import Mathlib

set_option maxHeartbeats 1000000

/-!
Verification of the Long-Running Agentic Framework (feature pipeline
orchestrator) against its specification.

The development shallowly embeds the JavaScript sources:
  * framework/lib/features.js   — feature store operations
    (getFeature, update, nextId, resolveOrder, depsAreMet)
  * framework/dashboard/server.js (openspec part) — parseTaskGroups,
    findByOpenspecKey, importChange
  * the autoplay controller (getNextAction, runOrchestratorMode)

The SQLite table of features is modelled as a list of rows in rowid
(insertion) order; `SELECT ... WHERE id = ?` with `.get()` is the first
matching row.  Timestamps (`created_at` / `updated_at`) are maintained by
database triggers and are outside the model: store equalities below are
therefore exactly the spec's "equal modulo updated_at".
-/

/-- A row of the `features` table, after `deserialize` (JSON columns parsed
into lists, `passes` into a boolean).  Defaults mirror `serialize` in
features.js and the schema defaults. -/
structure Feature where
  id : String
  category : String := ""
  description : String := ""
  status : String := "pending"
  depends_on : List String := []
  openspec_reference : String := ""
  requirements : List String := []
  architecture_compliance : List String := []
  verification_steps : List String := []
  assigned_to : String := "dev-agent"
  reviewed_by : String := "code-reviewer"
  tested_by : String := "qa-agent"
  passes : Bool := false
  openspec_change_id : String := ""
  openspec_task_group : Nat := 0
  notes : String := ""
  deriving DecidableEq, Repr

/-- The features table, in rowid (insertion) order. -/
abbrev Store := List Feature

/-- features.js `get`: `SELECT * FROM features WHERE id = ?` (first row). -/
def getFeature (store : Store) (fid : String) : Option Feature :=
  store.find? (fun f => f.id == fid)

/-- One dependency check inside `depsAreMet`:
`const dep = getFeature(...); return dep && dep.passes === true;`. -/
def depOk (store : Store) (depId : String) : Bool :=
  match getFeature store depId with
  | some dep => dep.passes
  | none => false

/-- features.js `depsAreMet`: true when the feature is absent or has no
dependencies, otherwise every dependency must exist and have
`passes === true`. -/
def depsAreMet (store : Store) (fid : String) : Bool :=
  match getFeature store fid with
  | none => true
  | some f => f.depends_on.all (fun depId => depOk store depId)

/-- The store exhibiting that `depsAreMet` does not consult `status`:
FEAT-002 is `complete` but has `passes = false`. -/
def c1Store : Store :=
  [{ id := "FEAT-001", depends_on := ["FEAT-002"] },
   { id := "FEAT-002", status := "complete" }]

/-!
## Lexicographic id order, sorting, and nextId

SQLite compares TEXT columns bytewise (memcmp); ids here are ASCII, so this
is the character-by-character order below.  `list()` runs `ORDER BY id`,
and `nextId` runs `ORDER BY id DESC LIMIT 1`.
-/

/-- Bytewise (memcmp) strict order on character lists, as SQLite compares
TEXT values. -/
def strLtList : List Char → List Char → Bool
  | [], [] => false
  | [], _ :: _ => true
  | _ :: _, [] => false
  | a :: as, b :: bs => if a < b then true else if b < a then false else strLtList as bs

/-- Bytewise strict order on strings. -/
def strLt (a b : String) : Bool := strLtList a.data b.data

/-- The id returned by `SELECT id FROM features ORDER BY id DESC LIMIT 1`:
the bytewise-largest id, `none` on an empty table. -/
def idsMax (ids : List String) : Option String :=
  ids.foldl
    (fun acc s =>
      match acc with
      | none => some s
      | some m => if strLt m s then some s else some m)
    none

/-- The largest stored id (see `idsMax`). -/
def maxIdRow (store : Store) : Option String := idsMax (store.map Feature.id)

/-- Total order used to model `ORDER BY id` (ascending). -/
def idLe (f g : Feature) : Prop := ¬ strLt g.id f.id = true

instance : DecidableRel idLe := fun _ _ => instDecidableNot

/-- features.js `list` with no filters: all rows, `ORDER BY id`. -/
def listById (store : Store) : Store := store.insertionSort idLe

/-- The parsed `depends_on` column of the feature with the given id
(empty when the id is not a feature). -/
def depsOf (store : Store) (fid : String) : List String :=
  match getFeature store fid with
  | some f => f.depends_on
  | none => []

/-!
## resolveOrder — depth-first topological sort

features.js `resolveOrder`:

  function visit(id) {
    if (visited.has(id)) return;
    if (visiting.has(id)) throw new Error('Circular dependency: ' + id);
    visiting.add(id);
    const f = map.get(id);
    if (f && f.depends_on) { for (const dep of f.depends_on) visit(dep); }
    visiting.delete(id);
    visited.add(id);
    if (f) sorted.push(f);
  }
  all.forEach(f => visit(f.id));

Because `visiting` holds exactly the ids on the current recursion stack
(added on entry, removed before return), it is modelled by the explicit
`stack` argument.  The recursion is driven by fuel; `dfsFuel` below is
proved large enough that the "out of fuel" branch is unreachable, so the
fuel is purely a modelling artifact.
-/

/-- DFS state: `visited` ids and the accumulated `sorted` output. -/
structure DfsSt where
  visited : List String
  sorted : List Feature
  deriving DecidableEq, Repr

/-- One worklist step of the DFS of `resolveOrder`.  The head of `ids` is
handled exactly as `visit(id)` does; `stack` is the `visiting` set. -/
def visitList (store : Store) : Nat → List String → DfsSt → List String → Except String DfsSt
  | 0, _, _, _ => .error "out of fuel"
  | _ + 1, _, st, [] => .ok st
  | fuel + 1, stack, st, fid :: rest =>
    if fid ∈ st.visited then visitList store fuel stack st rest
    else if fid ∈ stack then .error ("Circular dependency: " ++ fid)
    else
      match visitList store fuel (fid :: stack) st (depsOf store fid) with
      | .error e => .error e
      | .ok st2 =>
          visitList store fuel stack
            { visited := fid :: st2.visited,
              sorted := st2.sorted ++
                (match getFeature store fid with
                 | some f => [f]
                 | none => []) }
            rest

/-- Every id the DFS can ever reach: the feature ids and every id mentioned
in a `depends_on` column. -/
def allIds (store : Store) : Finset String :=
  (store.map Feature.id).toFinset ∪ ((store.map Feature.depends_on).flatten).toFinset

/-- Fuel weight of one id: processing it can cost one call for itself, one
for the end of its dependency list, and one per dependency. -/
def idWeight (store : Store) (fid : String) : Nat := (depsOf store fid).length + 2

/-- Total weight of the ids not yet excluded (visited or on the stack). -/
def restWeight (store : Store) (excl : List String) : Nat :=
  ((allIds store) \ excl.toFinset).sum (fun x => idWeight store x)

/-- Fuel sufficient for the whole DFS (proved below). -/
def dfsFuel (store : Store) : Nat := store.length + 1 + restWeight store []

/-- features.js `resolveOrder`: DFS over the id-ordered feature list,
returning the topologically sorted features or raising on a cycle. -/
def resolveOrder (store : Store) : Except String (List Feature) :=
  match visitList (listById store) (dfsFuel (listById store)) [] ⟨[], []⟩
      ((listById store).map Feature.id) with
  | .error e => .error e
  | .ok st => .ok st.sorted

/-!
## The Scheduler — getNextAction
-/

/-- The status-to-action table of `getNextAction` (after the `passes`
short-circuit).  Actions are the strings the controller dispatches on:
"dev", "review", "qa", "pr", "merge". -/
def actionForStatus (status : String) : String :=
  if status = "pending" ∨ status = "needs-revision" then "dev"
  else if status = "ready-for-review" then "review"
  else if status = "approved" ∨ status = "qa-testing" then "qa"
  else if status = "pr-open" then "merge"
  else "dev"

/-- Whether the scan of `getNextAction` stops at this feature: not complete,
not escalated, dependencies met. -/
def actionable (store : Store) (escalated : List String) (f : Feature) : Bool :=
  !(f.status == "complete") && !(decide (f.id ∈ escalated)) && depsAreMet store f.id

/-- The for-loop body of `getNextAction` over the ordered features. -/
def scanNext (store : Store) (escalated : List String) : List Feature → Option (String × Feature)
  | [] => none
  | f :: rest =>
    if f.status == "complete" then scanNext store escalated rest
    else if f.id ∈ escalated then scanNext store escalated rest
    else if !(depsAreMet store f.id) then scanNext store escalated rest
    else if f.passes then some ("pr", f)
    else some (actionForStatus f.status, f)

/-- autoplay.js `getNextAction`: scan the topological order for the first
actionable feature; a cycle error from `resolveOrder` propagates. -/
def getNextAction (store : Store) (escalated : List String) :
    Except String (Option (String × Feature)) :=
  match resolveOrder store with
  | .error e => .error e
  | .ok ordered => .ok (scanNext store escalated ordered)

/-!
## JavaScript string/number helpers

`nextId` uses `parseInt(row.id.replace('FEAT-', ''), 10)` and
`'FEAT-' + String(num + 1).padStart(3, '0')`; `update` uses
`parseInt(value, 10) || 0` for `openspec_task_group`.
-/

/-- Whitespace for the purposes of JS `\s` and `trim()` (the ASCII cases;
ids and markdown lines here contain no exotic unicode spaces). -/
def isJsSpace (c : Char) : Bool :=
  (c == ' ') || (c == '\t') || (c == '\r') || (c == '\n')

/-- The ASCII digit character for a digit value. -/
def digitChar (d : Nat) : Char := Char.ofNat (48 + d)

/-- Value of a run of ASCII digits. -/
def digitsVal (ds : List Char) : Nat :=
  ds.foldl (fun a c => 10 * a + (c.toNat - 48)) 0

/-- JS `parseInt(s, 10)`: skip leading whitespace, read a run of digits;
`none` models NaN (no digits).  A leading sign never occurs in the inputs
modelled here. -/
def jsParseInt (s : List Char) : Option Nat :=
  let t := s.dropWhile isJsSpace
  let ds := t.takeWhile Char.isDigit
  if ds.isEmpty then none else some (digitsVal ds)

/-- Decimal digits of `n`, accumulator-style; the fuel is always sufficient
because `decimalRepr` passes `n + 1`. -/
def reprGo : Nat → Nat → List Char → List Char
  | 0, _, acc => acc
  | fuel + 1, n, acc =>
    if n < 10 then digitChar n :: acc
    else reprGo fuel (n / 10) (digitChar (n % 10) :: acc)

/-- JS `String(n)` for a natural number. -/
def decimalRepr (n : Nat) : List Char := reprGo (n + 1) n []

/-- JS `s.padStart(3, '0')`. -/
def padStart3 (l : List Char) : List Char := List.replicate (3 - l.length) '0' ++ l

/-- The id string `'FEAT-' + String(n).padStart(3, '0')`. -/
def featN (n : Nat) : String := "FEAT-" ++ String.mk (padStart3 (decimalRepr n))

/-- Whether `pat` occurs at the start of the second list. -/
def isPrefixOfChars : List Char → List Char → Bool
  | [], _ => true
  | _ :: _, [] => false
  | p :: ps, c :: cs => (p == c) && isPrefixOfChars ps cs

/-- JS `s.replace(pat, '')`: remove the first occurrence of `pat`. -/
def replaceFirst : List Char → List Char → List Char
  | [], _ => []
  | c :: rest, pat =>
    if isPrefixOfChars pat (c :: rest) then (c :: rest).drop pat.length
    else c :: replaceFirst rest pat

/-- The arithmetic part of `nextId`: strip `FEAT-` from the largest id,
parse, add one, pad to three digits.  `FEAT-NaN` is what JS produces when
the parse fails ('FEAT-' + String(NaN + 1)). -/
def nextIdFrom (m : String) : String :=
  match jsParseInt (replaceFirst m.data "FEAT-".data) with
  | none => "FEAT-NaN"
  | some num => "FEAT-" ++ String.mk (padStart3 (decimalRepr (num + 1)))

/-- features.js `nextId`: `FEAT-001` on an empty table, otherwise increment
the bytewise-largest id. -/
def nextId (store : Store) : String :=
  match maxIdRow store with
  | none => "FEAT-001"
  | some m => nextIdFrom m

/-!
## update — allow-listed partial update

features.js `update` builds a SET list from the allow-listed keys of the
`fields` object and runs `UPDATE features SET ... WHERE id = @id`, then
returns `getFeature(id)`.  Values are field-typed at the boundary exactly
as the code serializes them; the code paths in this repository only ever
pass a value of the column's own shape, so a constructor mismatch (which
SQLite's flexible typing would accept) leaves the row unchanged here.
-/

/-- A JS value passed in an `update` fields object. -/
inductive FieldVal where
  | vStr (s : String)
  | vList (l : List String)
  | vBool (b : Bool)
  | vNat (n : Nat)
  deriving DecidableEq, Repr

/-- The allow-list of `update` in features.js. -/
def allowedFields : List String :=
  ["category", "description", "status", "depends_on", "openspec_reference",
   "requirements", "architecture_compliance", "verification_steps", "assigned_to",
   "reviewed_by", "tested_by", "passes", "notes", "openspec_change_id",
   "openspec_task_group"]

/-- JS truthiness, for `passes: value ? 1 : 0`. -/
def truthy : FieldVal → Bool
  | .vStr s => !(s == "")
  | .vList _ => true
  | .vBool b => b
  | .vNat n => !(n == 0)

/-- `parseInt(value, 10) || 0` for `openspec_task_group` (NaN becomes 0). -/
def coerceTaskGroup : FieldVal → Nat
  | .vNat n => n
  | .vStr s => (jsParseInt s.data).getD 0
  | _ => 0

/-- Apply one allow-listed key/value pair to a row, with the serialization
the code performs per key. -/
def setField (f : Feature) : String × FieldVal → Feature
  | ("category", .vStr s) => { f with category := s }
  | ("description", .vStr s) => { f with description := s }
  | ("status", .vStr s) => { f with status := s }
  | ("depends_on", .vList l) => { f with depends_on := l }
  | ("openspec_reference", .vStr s) => { f with openspec_reference := s }
  | ("requirements", .vList l) => { f with requirements := l }
  | ("architecture_compliance", .vList l) => { f with architecture_compliance := l }
  | ("verification_steps", .vList l) => { f with verification_steps := l }
  | ("assigned_to", .vStr s) => { f with assigned_to := s }
  | ("reviewed_by", .vStr s) => { f with reviewed_by := s }
  | ("tested_by", .vStr s) => { f with tested_by := s }
  | ("passes", v) => { f with passes := truthy v }
  | ("notes", .vStr s) => { f with notes := s }
  | ("openspec_change_id", .vStr s) => { f with openspec_change_id := s }
  | ("openspec_task_group", v) => { f with openspec_task_group := coerceTaskGroup v }
  | _ => f

/-- features.js `update`: filter the fields through the allow-list; with no
surviving set clause, skip the UPDATE; otherwise set the listed fields on
the rows matching the id.  Returns (`getFeature` after, the new store). -/
def setsOf (fields : List (String × FieldVal)) : List (String × FieldVal) :=
  fields.filter (fun kv => allowedFields.contains kv.1)

def update (store : Store) (fid : String) (fields : List (String × FieldVal)) :
    Option Feature × Store :=
  if (setsOf fields).isEmpty then (getFeature store fid, store)
  else
    (getFeature
        (store.map (fun f => if f.id = fid then (setsOf fields).foldl setField f else f)) fid,
      store.map (fun f => if f.id = fid then (setsOf fields).foldl setField f else f))

/-!
## The Autoplay Controller — runOrchestratorMode

The loop body of `runOrchestratorMode` in the autoplay controller.  Only the
store, the retry map and the escalation set evolve; agent sessions
(`runAgentSession`) are an opaque store mutation, and the success of an
actual `gh pr merge` / local git merge is an oracle.  `createPR` always sets
the feature's status to `pr-open` and returns true (both its gh and its
fallback path do); `mergePR` returns false without touching the store when
`auto_merge` is off, and on a successful merge sets status `complete`.
A thrown exception (cycle error from `resolveOrder`) terminates the
process, which for the termination claim counts as halting.
-/

/-- The configuration keys the orchestrator loop consults. -/
structure AutoConfig where
  autoMerge : Bool
  safeMode : Bool
  maxRetries : Nat
  deriving DecidableEq, Repr

/-- Controller state: the store plus the per-run retry counters and
escalation set. -/
structure CState where
  store : Store
  retries : List (String × Nat)
  escalated : List String
  deriving DecidableEq, Repr

/-- `retries[id] || 0`. -/
def getRetry (r : List (String × Nat)) (fid : String) : Nat :=
  match r.find? (fun p => p.1 == fid) with
  | some p => p.2
  | none => 0

/-- `retries[id] = n`. -/
def setRetry (r : List (String × Nat)) (fid : String) (n : Nat) : List (String × Nat) :=
  (fid, n) :: r.filter (fun p => !(p.1 == fid))

/-- `features.update(root, id, { status: s })`. -/
def setStatus (store : Store) (fid s : String) : Store :=
  (update store fid [("status", FieldVal.vStr s)]).2

/-- Result of one loop iteration: the loop halted (break, or an uncaught
exception), or continues in a new state. -/
inductive StepRes where
  | halted
  | continues (s : CState)

/-- The agent-session phase of an iteration: run the agent, reload the
feature, and count a stall (status unchanged) against the retry budget. -/
def agentPhase (agent : String → Feature → Store → Store) (cfg : AutoConfig)
    (action : String) (feature : Feature) (s : CState) : CState :=
  let store2 := agent action feature s.store
  match getFeature store2 feature.id with
  | some updated =>
    if updated.status = feature.status then
      let n := getRetry s.retries feature.id + 1
      { store := store2,
        retries := setRetry s.retries feature.id n,
        escalated := if n > cfg.maxRetries then feature.id :: s.escalated else s.escalated }
    else { s with store := store2 }
  | none => { s with store := store2 }

/-- One iteration of the `while (true)` loop of `runOrchestratorMode`. -/
def controllerStep (agent : String → Feature → Store → Store)
    (mergeOk : Feature → Store → Bool) (cfg : AutoConfig) (s : CState) : StepRes :=
  match getNextAction s.store s.escalated with
  | .error _ => .halted
  | .ok none => .halted
  | .ok (some (action, feature)) =>
    if action = "pr" then
      .continues { s with store := setStatus s.store feature.id "pr-open" }
    else if action = "merge" then
      if cfg.autoMerge && mergeOk feature s.store then
        .continues { s with store := setStatus s.store feature.id "complete" }
      else if cfg.safeMode then
        .continues { s with escalated := feature.id :: s.escalated }
      else .continues s
    else if action = "dev" ∧ feature.status = "needs-revision" then
      if getRetry s.retries feature.id + 1 > cfg.maxRetries then
        .continues { s with
          retries := setRetry s.retries feature.id (getRetry s.retries feature.id + 1),
          escalated := feature.id :: s.escalated }
      else
        .continues (agentPhase agent cfg action feature
          { s with retries := setRetry s.retries feature.id (getRetry s.retries feature.id + 1) })
    else
      .continues (agentPhase agent cfg action feature s)

/-- Run the loop for at most `n` iterations; `some s` means the loop halted
in state `s` within the budget, `none` that it was still running. -/
def runLoop (agent : String → Feature → Store → Store)
    (mergeOk : Feature → Store → Bool) (cfg : AutoConfig) : Nat → CState → Option CState
  | 0, _ => none
  | n + 1, s =>
    match controllerStep agent mergeOk cfg s with
    | .halted => some s
    | .continues s2 => runLoop agent mergeOk cfg n s2

/-- A feature QA passed whose PR is already open. -/
def c2Feature : Feature := { id := "FEAT-001", status := "pr-open", passes := true }

/-- Controller state on the one-feature store. -/
def c2State : CState := { store := [c2Feature], retries := [], escalated := [] }

/-!
## nextId: characterization and (non-)monotonicity

`nextId` takes the bytewise-largest id.  While every id is a three-digit
`FEAT-NNN`, bytewise order agrees with numeric order; `FEAT-1000` however
sorts below `FEAT-999`.
-/

/-- The numeric maximum of a list (0 on empty). -/
def maxL (ns : List Nat) : Nat := ns.foldl Nat.max 0

/-- A store whose largest id is FEAT-999. -/
def c3Store : Store := [{ id := "FEAT-999" }]

/-!
## resolveOrder is a topological sort (or raises on a cycle)
-/

/-- The dependency edge relation of the store: `depEdge store a b` when the
feature with id `a` lists `b` in its `depends_on`. -/
def depEdge (store : Store) (a b : String) : Prop :=
  ∃ f ∈ store, f.id = a ∧ b ∈ f.depends_on

/-- Invariant of the DFS state: `sorted` contains exactly the visited
features, without duplicates, and in an order where every feature comes
after all of its existing dependencies. -/
def DfsInv (S : Store) (st : DfsSt) : Prop :=
  (∀ g ∈ S, (g.id ∈ st.visited ↔ g ∈ st.sorted)) ∧
    (st.sorted.map Feature.id).Nodup ∧
    (∀ f ∈ st.sorted, f ∈ S) ∧
    (∀ l1 f l2, st.sorted = l1 ++ f :: l2 →
      ∀ d ∈ f.depends_on, ∀ g ∈ S, g.id = d → g ∈ l1)

/-- A store with a self-loop: FEAT-001 depends on itself. -/
def c9Store : Store := [{ id := "FEAT-001", depends_on := ["FEAT-001"] }]

/-!
## The Spec Importer — parseTaskGroups and importChange

server.js (openspec module).  The artifact acquisition (OpenSpec CLI with
filesystem fallback) is external I/O; `importChange` below is parameterized
by the artifact contents it ends up with (`tasks`, `specs`).  `proposal` and
`design` are read but never used for feature creation and are omitted.  The
returned created/updated id lists are only logged and are omitted as well.
-/

/-- JS `trim()` (ASCII whitespace). -/
def jsTrim (l : List Char) : List Char :=
  ((l.dropWhile isJsSpace).reverse.dropWhile isJsSpace).reverse

/-- The `\s+(.+)` tail of the line regexes: at least one whitespace, then a
nonempty capture.  On a whitespace-only tail the regex engine backtracks, so
the capture becomes the final whitespace character. -/
def wsCapture (rest : List Char) : Option (List Char) :=
  let ws := rest.takeWhile isJsSpace
  if ws.isEmpty then none
  else if ws.length < rest.length then some (rest.drop ws.length)
  else if 2 ≤ ws.length then some (rest.drop (ws.length - 1))
  else none

/-- Regex `^\d+[.)]\s+(.+)` of parseTaskGroups: a top-level numbered item;
returns the capture. -/
def topMatch (l : List Char) : Option (List Char) :=
  let ds := l.takeWhile Char.isDigit
  if ds.isEmpty then none
  else
    match l.drop ds.length with
    | c :: rest => if c = '.' ∨ c = ')' then wsCapture rest else none
    | [] => none

/-- Regex `^\s+[-*]\s+(.+)`: an indented bullet; returns the capture. -/
def subMatch (l : List Char) : Option (List Char) :=
  let ws := l.takeWhile isJsSpace
  if ws.isEmpty then none
  else
    match l.drop ws.length with
    | c :: rest => if c = '-' ∨ c = '*' then wsCapture rest else none
    | [] => none

/-- `replace(/^\[[ x]\]\s*/i, '')`: strip a leading checkbox marker. -/
def stripCheckbox (l : List Char) : List Char :=
  match l with
  | '[' :: c :: ']' :: rest =>
    if c = ' ' ∨ c = 'x' ∨ c = 'X' then rest.dropWhile isJsSpace else l
  | _ => l

/-- A parsed task group: a top-level numbered item's title plus its bullet
steps. -/
structure TaskGroup where
  title : String
  steps : List String
  deriving DecidableEq, Repr

/-- The line loop of parseTaskGroups, carrying the current group. -/
def parseLines : List (List Char) → Option TaskGroup → List TaskGroup
  | [], none => []
  | [], some g => [g]
  | line :: rest, cur =>
    match topMatch line with
    | some t =>
      (match cur with
       | some g => [g]
       | none => []) ++ parseLines rest (some ⟨String.mk (jsTrim t), []⟩)
    | none =>
      match cur with
      | some g =>
        match subMatch line with
        | some m =>
          if (jsTrim (stripCheckbox m)).isEmpty then parseLines rest (some g)
          else parseLines rest
            (some ⟨g.title, g.steps ++ [String.mk (jsTrim (stripCheckbox m))]⟩)
        | none => parseLines rest (some g)
      | none => parseLines rest none

/-- JS `split('\n')`. -/
def splitLinesAux : List Char → List Char → List (List Char)
  | [], acc => [acc.reverse]
  | c :: rest, acc =>
    if c = '\n' then acc.reverse :: splitLinesAux rest []
    else splitLinesAux rest (c :: acc)

/-- JS `split('\n')` on a string. -/
def splitLines (s : String) : List (List Char) := splitLinesAux s.data []

/-- server.js `parseTaskGroups` (empty content is falsy and yields no
groups). -/
def parseTaskGroups (content : String) : List TaskGroup :=
  if content = "" then [] else parseLines (splitLines content) none

/-- Lowercase an ASCII letter. -/
def charLower (c : Char) : Char :=
  if 'A' ≤ c ∧ c ≤ 'Z' then Char.ofNat (c.toNat + 32) else c

/-- Strip a (lowercase) literal pattern case-insensitively from the head. -/
def stripCI : List Char → List Char → Option (List Char)
  | [], rest => some rest
  | _ :: _, [] => none
  | p :: ps, c :: cs => if charLower c = p then stripCI ps cs else none

/-- After `##`/`###`: regex tail `\s+Requirement:\s*` (case-insensitive);
returns the remainder of the line. -/
def reqTail (rest : List Char) : Option (List Char) :=
  let ws := rest.takeWhile isJsSpace
  if ws.isEmpty then none
  else
    match stripCI "requirement:".data (rest.drop ws.length) with
    | some r => some (r.dropWhile isJsSpace)
    | none => none

/-- Regex `^###?\s+Requirement:\s*` (case-insensitive) on a trimmed line. -/
def reqMatch (l : List Char) : Option (List Char) :=
  match l with
  | '#' :: '#' :: rest =>
    match rest with
    | '#' :: r =>
      match reqTail r with
      | some out => some out
      | none => reqTail rest
    | _ => reqTail rest
  | _ => none

/-- Word character for the `\b` boundary. -/
def isWordChar (c : Char) : Bool := c.isAlpha || c.isDigit || (c == '_')

/-- Case-insensitive keyword at the head, followed by a word boundary. -/
def startsKW (kw : List Char) (l : List Char) : Bool :=
  match stripCI kw l with
  | some r =>
    match r with
    | [] => true
    | c :: _ => !(isWordChar c)
  | none => false

/-- Regex `^-\s+(GIVEN|WHEN|THEN|AND)\b` (case-insensitive) on a trimmed
line; on a match, the pushed text is the line with `-\s+` stripped. -/
def scenMatch (l : List Char) : Option (List Char) :=
  match l with
  | '-' :: rest =>
    if (rest.takeWhile isJsSpace).isEmpty then none
    else
      if startsKW "given".data (rest.drop (rest.takeWhile isJsSpace).length) ||
         startsKW "when".data (rest.drop (rest.takeWhile isJsSpace).length) ||
         startsKW "then".data (rest.drop (rest.takeWhile isJsSpace).length) ||
         startsKW "and".data (rest.drop (rest.takeWhile isJsSpace).length) then
        some (rest.drop (rest.takeWhile isJsSpace).length)
      else none
  | _ => none

/-- Requirement lines extracted from the aggregated spec content. -/
def specRequirements (specs : String) : List String :=
  if specs = "" then []
  else (splitLines specs).filterMap
    (fun line => (reqMatch (jsTrim line)).map (fun r => String.mk (jsTrim r)))

/-- Scenario lines extracted from the aggregated spec content. -/
def specScenarios (specs : String) : List String :=
  if specs = "" then []
  else (splitLines specs).filterMap
    (fun line => (scenMatch (jsTrim line)).map (fun t => String.mk (jsTrim t)))

/-- server.js `findByOpenspecKey`: first row matching the composite key,
then re-read through `features.get` by id. -/
def findByOpenspecKey (store : Store) (changeId : String) (g : Nat) :
    Option Feature :=
  match store.find? (fun f => f.openspec_change_id == changeId &&
      f.openspec_task_group == g) with
  | some row => getFeature store row.id
  | none => none

/-- `specRequirements.length > 0 ? specRequirements : group.steps`. -/
def reqsFor (reqs : List String) (tg : TaskGroup) : List String :=
  if reqs.isEmpty then tg.steps else reqs

/-- The verification steps: scenario lines suffixed with " verified" when
present, otherwise the group's steps suffixed with " works correctly". -/
def vstepsFor (scens : List String) (tg : TaskGroup) : List String :=
  if scens.isEmpty then tg.steps.map (fun s => s ++ " works correctly")
  else scens.map (fun s => s ++ " verified")

/-- The `featureData` content fields passed to `features.update` for an
existing feature (in JS object-literal order). -/
def importedFields (changeName title : String) (reqs vsteps : List String)
    (g : Nat) : List (String × FieldVal) :=
  [("category", .vStr changeName),
   ("description", .vStr title),
   ("openspec_reference", .vStr ("openspec/changes/" ++ changeName)),
   ("openspec_change_id", .vStr changeName),
   ("openspec_task_group", .vNat g),
   ("requirements", .vList reqs),
   ("verification_steps", .vList vsteps),
   ("notes", .vStr ("Imported from OpenSpec change: " ++ changeName))]

/-- The feature row created for a new task group (featureData fields plus
the serialize defaults). -/
def mkImported (fid changeName title : String) (reqs vsteps : List String)
    (g : Nat) : Feature :=
  { id := fid, category := changeName, description := title,
    status := "pending", depends_on := [],
    openspec_reference := "openspec/changes/" ++ changeName,
    requirements := reqs, architecture_compliance := [],
    verification_steps := vsteps, assigned_to := "dev-agent",
    reviewed_by := "code-reviewer", tested_by := "qa-agent", passes := false,
    openspec_change_id := changeName, openspec_task_group := g,
    notes := "Imported from OpenSpec change: " ++ changeName }

/-- The upsert loop of importChange over the task groups (`g` is the
1-based group number). -/
def upsertGroups (changeName : String) (reqs scens : List String) :
    Store → Nat → List TaskGroup → Store
  | store, _, [] => store
  | store, g, tg :: rest =>
    match findByOpenspecKey store changeName g with
    | some existing =>
      upsertGroups changeName reqs scens
        (update store existing.id
          (importedFields changeName tg.title (reqsFor reqs tg)
            (vstepsFor scens tg) g)).2
        (g + 1) rest
    | none =>
      upsertGroups changeName reqs scens
        (store ++ [mkImported (nextId store) changeName tg.title
          (reqsFor reqs tg) (vstepsFor scens tg) g])
        (g + 1) rest

/-- The `allIds` collection pass of the dependency wiring. -/
def collectIds (store : Store) (changeName : String) (k : Nat) : List String :=
  (List.range k).filterMap
    (fun i => (findByOpenspecKey store changeName (i + 1)).map Feature.id)

/-- One step of the wiring loop: add `prev` to the depends_on of the
feature `cur` unless already present. -/
def wireStep (store : Store) (prev cur : String) : Store :=
  match getFeature store cur with
  | some f =>
    if f.depends_on.contains prev then store
    else (update store cur [("depends_on", .vList (f.depends_on ++ [prev]))]).2
  | none => store

/-- The wiring loop over consecutive collected ids. -/
def wireDeps : Store → List String → Store
  | store, [] => store
  | store, [_] => store
  | store, a :: b :: rest => wireDeps (wireStep store a b) (b :: rest)

/-- The task groups actually imported: a change with no parseable groups
becomes a single group titled with the change name. -/
def effectiveGroups (changeName tasks : String) : List TaskGroup :=
  if (parseTaskGroups tasks).isEmpty then [⟨changeName, []⟩]
  else parseTaskGroups tasks

/-- server.js `importChange`, parameterized by the artifact contents. -/
def importChange (store : Store) (changeName tasks specs : String) : Store :=
  wireDeps
    (upsertGroups changeName (specRequirements specs) (specScenarios specs)
      store 1 (effectiveGroups changeName tasks))
    (collectIds
      (upsertGroups changeName (specRequirements specs) (specScenarios specs)
        store 1 (effectiveGroups changeName tasks))
      changeName (effectiveGroups changeName tasks).length)

/-!
## Closed forms for importChange on a clean store

On a store with no features of the imported change and canonical three-digit
ids, the upsert appends one freshly numbered feature per task group
(`createdFeats`), and the wiring pass then chains their `depends_on`
(`wiredFeats`).
-/

/-- The features the upsert creates for the task groups, starting at group
`g` with current maximal id number `m`. -/
def createdFeats (C : String) (reqs scens : List String) :
    Nat → Nat → List TaskGroup → List Feature
  | _, _, [] => []
  | g, m, tg :: rest =>
    mkImported (featN (m + 1)) C tg.title (reqsFor reqs tg)
      (vstepsFor scens tg) g ::
    createdFeats C reqs scens (g + 1) (m + 1) rest

/-- The depends_on list contributed by an optional predecessor id. -/
def prevList : Option String → List String
  | none => []
  | some p => [p]

/-- The created features after the sequential dependency wiring: each one
depends on its predecessor (the first on `p`, if any). -/
def wiredFeats (C : String) (reqs scens : List String) :
    Nat → Nat → Option String → List TaskGroup → List Feature
  | _, _, _, [] => []
  | g, m, p, tg :: rest =>
    { mkImported (featN (m + 1)) C tg.title (reqsFor reqs tg)
        (vstepsFor scens tg) g with depends_on := prevList p } ::
    wiredFeats C reqs scens (g + 1) (m + 1) (some (featN (m + 1))) rest

/-- The canonical ids `featN (m+1), …, featN (m+k)`. -/
def idsFrom : Nat → Nat → List String
  | _, 0 => []
  | m, k + 1 => featN (m + 1) :: idsFrom (m + 1) k

/-- `collectIds` generalized to an arbitrary starting group. -/
def collectFrom (store : Store) (C : String) (g k : Nat) : List String :=
  (List.range k).filterMap
    (fun i => (findByOpenspecKey store C (g + i)).map Feature.id)

/-!
## Re-import frame: what an existing-feature update may and may not touch

`importChange` on an existing key (change, group) goes through
`features.update` with only the content fields, then the wiring may append
to depends_on.  `keepRel` collects everything that must survive: id,
status, passes, every present depends_on entry, the upsert key and the
agent/compliance columns.
-/

def keepRel (f f2 : Feature) : Prop :=
  f2.id = f.id ∧ f2.status = f.status ∧ f2.passes = f.passes ∧
  (∀ d ∈ f.depends_on, d ∈ f2.depends_on) ∧
  f2.openspec_change_id = f.openspec_change_id ∧
  f2.openspec_task_group = f.openspec_task_group ∧
  f2.assigned_to = f.assigned_to ∧ f2.reviewed_by = f.reviewed_by ∧
  f2.tested_by = f.tested_by ∧
  f2.architecture_compliance = f.architecture_compliance

/-!
## Theorems
-/

lemma getFeature_eq_some_mem {store : Store} {fid : String} {f : Feature}
    (h : getFeature store fid = some f) : f ∈ store ∧ f.id = fid := by
  have hm := List.mem_of_find?_eq_some h
  have hp := List.find?_some h
  simp only [beq_iff_eq] at hp
  exact ⟨hm, hp⟩

lemma depOk_eq_true_iff (store : Store) (d : String) :
    depOk store d = true ↔
      ∃ dep, getFeature store d = some dep ∧ dep.passes = true := by
  cases h : getFeature store d with
  | none => simp [depOk, h]
  | some dep => simp [depOk, h]

/-- C1 counterexample.  The claim says `depsAreMet` is true iff every
dependency exists with status `complete`.  In `c1Store` every dependency of
FEAT-001 exists and has status `complete`, yet `depsAreMet` returns false,
because features.js checks `dep.passes === true`, not the status. -/
theorem depsAreMet_ignores_complete_status :
    (∀ d ∈ ["FEAT-002"],
        ∃ g, getFeature c1Store d = some g ∧ g.status = "complete") ∧
      getFeature c1Store "FEAT-001" =
        some { id := "FEAT-001", depends_on := ["FEAT-002"] } ∧
      depsAreMet c1Store "FEAT-001" = false := by
  refine ⟨?_, by decide, by decide⟩
  intro d hd
  simp only [List.mem_singleton] at hd
  subst hd
  exact ⟨{ id := "FEAT-002", status := "complete" }, by decide, by decide⟩

/-- C1 amended: for every feature present in the store, `depsAreMet` is true
iff every id in `depends_on` refers to an existing feature whose `passes`
field is true; status `complete` with `passes = false` does not satisfy it. -/
theorem depsAreMet_iff_passes (store : Store) (fid : String) (f : Feature)
    (hf : getFeature store fid = some f) :
    depsAreMet store fid = true ↔
      ∀ d ∈ f.depends_on,
        ∃ dep, getFeature store d = some dep ∧ dep.passes = true := by
  unfold depsAreMet
  rw [hf]
  rw [List.all_eq_true]
  constructor
  · intro h d hd
    exact (depOk_eq_true_iff store d).mp (h d hd)
  · intro h d hd
    exact (depOk_eq_true_iff store d).mpr (h d hd)

/-- Witness for the amended C1 theorem at a concrete input. -/
theorem depsAreMet_iff_passes_witness :
    depsAreMet c1Store "FEAT-001" = true ↔
      ∀ d ∈ ["FEAT-002"],
        ∃ dep, getFeature c1Store d = some dep ∧ dep.passes = true :=
  depsAreMet_iff_passes c1Store "FEAT-001"
    { id := "FEAT-001", depends_on := ["FEAT-002"] } (by decide)

/-!
## Scheduler claims: complete is terminal; passes routes to pr
-/

lemma scanNext_eq_find (store : Store) (esc : List String) (l : List Feature) :
    scanNext store esc l =
      (l.find? (actionable store esc)).map
        (fun f => (if f.passes then "pr" else actionForStatus f.status, f)) := by
  induction l with
  | nil => rfl
  | cons f rest ih =>
    simp only [scanNext, List.find?_cons, actionable]
    by_cases h1 : f.status == "complete"
    · simpa [h1] using ih
    · by_cases h2 : f.id ∈ esc
      · simpa [h1, h2] using ih
      · by_cases h3 : depsAreMet store f.id
        · by_cases h4 : f.passes <;> simp [h1, h2, h3, h4]
        · simpa [h1, h2, h3] using ih

lemma getNextAction_some {store : Store} {esc : List String} {a : String} {f : Feature}
    (h : getNextAction store esc = .ok (some (a, f))) :
    ∃ ordered, resolveOrder store = .ok ordered ∧
      ordered.find? (actionable store esc) = some f ∧
      a = (if f.passes then "pr" else actionForStatus f.status) := by
  unfold getNextAction at h
  cases hro : resolveOrder store with
  | error e => rw [hro] at h; exact absurd h (by simp)
  | ok ordered =>
    rw [hro] at h
    simp only [Except.ok.injEq] at h
    rw [scanNext_eq_find] at h
    rcases Option.map_eq_some'.mp h with ⟨g, hg, hpair⟩
    have hfg : g = f := congrArg Prod.snd hpair
    subst hfg
    exact ⟨ordered, rfl, hg, (congrArg Prod.fst hpair).symm⟩

/-- C5: `status = complete` is terminal — whenever the scheduler returns an
(action, feature) pair, the feature's status is not `complete`, whatever its
`passes` value, the escalation set, and the other features. -/
theorem scheduler_never_returns_complete (store : Store) (esc : List String)
    (a : String) (f : Feature)
    (h : getNextAction store esc = .ok (some (a, f))) : f.status ≠ "complete" := by
  rcases getNextAction_some h with ⟨ordered, _, hfind, _⟩
  have hact := List.find?_some hfind
  unfold actionable at hact
  simp only [Bool.and_eq_true, Bool.not_eq_true', beq_eq_false_iff_ne] at hact
  exact hact.1.1

/-- Witness for C5 at a concrete input: a lone pending feature is returned
with action "dev", and indeed its status is not complete. -/
theorem scheduler_never_returns_complete_witness :
    ({ id := "FEAT-001" } : Feature).status ≠ "complete" :=
  scheduler_never_returns_complete [{ id := "FEAT-001" }] [] "dev"
    { id := "FEAT-001" } rfl

/-- C4: if `f` is the first feature in topological order that survives the
scheduler's skip checks (not complete, not escalated, dependencies met) and
`f.passes = true`, then the scheduler returns ("pr", f), regardless of which
status `f` currently has. -/
theorem scheduler_passes_routes_pr (store : Store) (esc : List String)
    (ordered : List Feature) (f : Feature)
    (hro : resolveOrder store = .ok ordered)
    (hfind : ordered.find? (actionable store esc) = some f)
    (hp : f.passes = true) :
    getNextAction store esc = .ok (some ("pr", f)) := by
  unfold getNextAction
  rw [hro]
  show Except.ok (scanNext store esc ordered) = _
  rw [scanNext_eq_find, hfind]
  simp [hp]

/-- Witness for C4: a feature that QA passed while in status `approved` is
routed to "pr". -/
theorem scheduler_passes_routes_pr_witness :
    getNextAction [{ id := "FEAT-001", status := "approved", passes := true }] [] =
      .ok (some ("pr", { id := "FEAT-001", status := "approved", passes := true })) :=
  scheduler_passes_routes_pr
    [{ id := "FEAT-001", status := "approved", passes := true }] []
    [{ id := "FEAT-001", status := "approved", passes := true }]
    { id := "FEAT-001", status := "approved", passes := true } rfl rfl rfl

/-- C10: updating a nonexistent id returns null and leaves every row of the
store unchanged; and fields whose keys are all outside the allow-list are
ignored — the store is returned unchanged and the row is not written. -/
theorem update_missing_and_unknown_fields (store : Store) (fid : String)
    (fields : List (String × FieldVal)) :
    (getFeature store fid = none → update store fid fields = (none, store)) ∧
      ((∀ kv ∈ fields, allowedFields.contains kv.1 = false) →
        update store fid fields = (getFeature store fid, store)) := by
  constructor
  · intro hnone
    have hno : ∀ f ∈ store, ¬ f.id = fid := by
      intro f hf
      have := List.find?_eq_none.mp hnone f hf
      simpa using this
    have hmap : store.map
        (fun f => if f.id = fid then (setsOf fields).foldl setField f else f) = store := by
      conv_rhs => rw [← List.map_id store]
      apply List.map_congr_left
      intro f hf
      simp [hno f hf]
    unfold update
    by_cases hE : (setsOf fields).isEmpty
    · rw [if_pos hE, hnone]
    · rw [if_neg hE, hmap, hnone]
  · intro hall
    have hfil : setsOf fields = [] := by
      rw [setsOf, List.filter_eq_nil_iff]
      intro kv hkv
      have := hall kv hkv
      simp only [this, Bool.false_eq_true, not_false_eq_true]
    unfold update
    rw [if_pos (by rw [hfil]; rfl)]

/-- Witness for C10: updating a missing id on an empty store, and an update
whose only field name is unknown. -/
theorem update_missing_and_unknown_fields_witness :
    update [] "FEAT-001" [("status", .vStr "complete")] = (none, []) ∧
      update c1Store "FEAT-001" [("bogus", .vStr "x")] =
        (getFeature c1Store "FEAT-001", c1Store) :=
  ⟨(update_missing_and_unknown_fields [] "FEAT-001" _).1 rfl,
   (update_missing_and_unknown_fields c1Store "FEAT-001" _).2 (by decide)⟩

/-- C2: the orchestrator loop does not halt on every finite feature set.
With a single feature having `passes = true` and status `pr-open`, the
scheduler's `passes` short-circuit fires before the `pr-open → merge`
mapping, so every iteration returns action "pr"; `createPR` rewrites the
status to `pr-open` (a no-op) and the loop state repeats, for every agent
behaviour, merge oracle, configuration and iteration budget. -/
theorem orchestrator_loop_diverges (agent : String → Feature → Store → Store)
    (mergeOk : Feature → Store → Bool) (cfg : AutoConfig) (n : Nat) :
    runLoop agent mergeOk cfg n c2State = none := by
  have hstep : controllerStep agent mergeOk cfg c2State = .continues c2State := rfl
  induction n with
  | zero => rfl
  | succ k ih =>
    simp only [runLoop, hstep]
    exact ih

lemma digitChar_lt_iff (a b : Nat) (ha : a ≤ 9) (hb : b ≤ 9) :
    digitChar a < digitChar b ↔ a < b := by
  have h : ∀ x y : Fin 10, (digitChar x < digitChar y ↔ (x : Nat) < (y : Nat)) := by decide
  have := h ⟨a, by omega⟩ ⟨b, by omega⟩
  simpa using this

lemma isJsSpace_digitChar (a : Nat) (ha : a ≤ 9) : isJsSpace (digitChar a) = false := by
  have h : ∀ x : Fin 10, isJsSpace (digitChar x) = false := by decide
  have := h ⟨a, by omega⟩
  simpa using this

lemma isDigit_digitChar (a : Nat) (ha : a ≤ 9) : (digitChar a).isDigit = true := by
  have h : ∀ x : Fin 10, (digitChar x).isDigit = true := by decide
  have := h ⟨a, by omega⟩
  simpa using this

lemma toNat_digitChar (a : Nat) (ha : a ≤ 9) : (digitChar a).toNat = 48 + a := by
  have h : ∀ x : Fin 10, (digitChar x).toNat = 48 + (x : Nat) := by decide
  have := h ⟨a, by omega⟩
  simpa using this

lemma decimalRepr_d1 (n : Nat) (h : n ≤ 9) : decimalRepr n = [digitChar n] := by
  simp [decimalRepr, reprGo, Nat.lt_succ_of_le h, show n < 10 by omega]

lemma decimalRepr_d2 (n : Nat) (h10 : 10 ≤ n) (h99 : n ≤ 99) :
    decimalRepr n = [digitChar (n / 10), digitChar (n % 10)] := by
  obtain ⟨m, rfl⟩ : ∃ m, n = m + 1 := ⟨n - 1, by omega⟩
  show reprGo (m + 1 + 1) (m + 1) [] = _
  rw [show reprGo (m + 1 + 1) (m + 1) [] =
      reprGo (m + 1) ((m + 1) / 10) [digitChar ((m + 1) % 10)] by
    simp [reprGo, show ¬ (m + 1 < 10) by omega]]
  have hd : (m + 1) / 10 < 10 := by omega
  simp [reprGo, hd]

lemma decimalRepr_d3 (n : Nat) (h100 : 100 ≤ n) (h999 : n ≤ 999) :
    decimalRepr n = [digitChar (n / 100), digitChar (n / 10 % 10), digitChar (n % 10)] := by
  obtain ⟨m, rfl⟩ : ∃ m, n = m + 2 := ⟨n - 2, by omega⟩
  show reprGo (m + 2 + 1) (m + 2) [] = _
  rw [show reprGo (m + 2 + 1) (m + 2) [] =
      reprGo (m + 2) ((m + 2) / 10) [digitChar ((m + 2) % 10)] by
    simp [reprGo, show ¬ (m + 2 < 10) by omega]]
  rw [show reprGo (m + 2) ((m + 2) / 10) [digitChar ((m + 2) % 10)] =
      reprGo (m + 1) ((m + 2) / 10 / 10)
        [digitChar ((m + 2) / 10 % 10), digitChar ((m + 2) % 10)] by
    simp [reprGo, show ¬ ((m + 2) / 10 < 10) by omega]]
  rw [Nat.div_div_eq_div_mul]
  have hd : (m + 2) / 100 < 10 := by omega
  simp [reprGo, hd]

/-- The padded three-digit form of any `n ≤ 999`. -/
lemma pad3_eq (n : Nat) (h : n ≤ 999) :
    padStart3 (decimalRepr n) =
      [digitChar (n / 100), digitChar (n / 10 % 10), digitChar (n % 10)] := by
  have h0 : digitChar 0 = '0' := rfl
  rcases Nat.lt_or_ge n 10 with h1 | h1
  · rw [decimalRepr_d1 n (by omega), show n / 100 = 0 by omega,
      show n / 10 % 10 = 0 by omega, show n % 10 = n by omega, h0]
    rfl
  · rcases Nat.lt_or_ge n 100 with h2 | h2
    · rw [decimalRepr_d2 n (by omega) (by omega), show n / 100 = 0 by omega,
        show n / 10 % 10 = n / 10 by omega, h0]
      rfl
    · rw [decimalRepr_d3 n (by omega) (by omega)]
      rfl

lemma strLtList_append (p x y : List Char) :
    strLtList (p ++ x) (p ++ y) = strLtList x y := by
  induction p with
  | nil => rfl
  | cons c cs ih => simp [strLtList, ih]

lemma featN_data (n : Nat) :
    (featN n).data = "FEAT-".data ++ padStart3 (decimalRepr n) := rfl

lemma featN_lt_iff (a b : Nat) (ha : a ≤ 999) (hb : b ≤ 999) :
    (strLt (featN a) (featN b) = true) ↔ a < b := by
  have hd : strLt (featN a) (featN b) =
      strLtList (padStart3 (decimalRepr a)) (padStart3 (decimalRepr b)) := by
    show strLtList (featN a).data (featN b).data = _
    rw [featN_data, featN_data, strLtList_append]
  rw [hd, pad3_eq a ha, pad3_eq b hb]
  have e2 : digitChar (a / 100) < digitChar (b / 100) ↔ a / 100 < b / 100 :=
    digitChar_lt_iff _ _ (by omega) (by omega)
  have e2r : digitChar (b / 100) < digitChar (a / 100) ↔ b / 100 < a / 100 :=
    digitChar_lt_iff _ _ (by omega) (by omega)
  have e1 : digitChar (a / 10 % 10) < digitChar (b / 10 % 10) ↔ a / 10 % 10 < b / 10 % 10 :=
    digitChar_lt_iff _ _ (by omega) (by omega)
  have e1r : digitChar (b / 10 % 10) < digitChar (a / 10 % 10) ↔ b / 10 % 10 < a / 10 % 10 :=
    digitChar_lt_iff _ _ (by omega) (by omega)
  have e0 : digitChar (a % 10) < digitChar (b % 10) ↔ a % 10 < b % 10 :=
    digitChar_lt_iff _ _ (by omega) (by omega)
  have e0r : digitChar (b % 10) < digitChar (a % 10) ↔ b % 10 < a % 10 :=
    digitChar_lt_iff _ _ (by omega) (by omega)
  simp only [strLtList, e2, e2r, e1, e1r, e0, e0r]
  split_ifs <;> simp <;> omega

lemma foldl_max_le (ns : List Nat) (m B : Nat) (hm : m ≤ B) (hb : ∀ n ∈ ns, n ≤ B) :
    ns.foldl Nat.max m ≤ B := by
  induction ns generalizing m with
  | nil => exact hm
  | cons n rest ih =>
    exact ih (max m n) (by have := hb n (by simp); omega)
      (fun x hx => hb x (by simp [hx]))

lemma maxL_le (ns : List Nat) (B : Nat) (hb : ∀ n ∈ ns, n ≤ B) : maxL ns ≤ B :=
  foldl_max_le ns 0 B (Nat.zero_le B) hb

lemma foldl_idsMax_featN (ns : List Nat) (m : Nat) (hm : m ≤ 999)
    (hb : ∀ n ∈ ns, n ≤ 999) :
    List.foldl
      (fun acc s =>
        match acc with
        | none => some s
        | some mm => if strLt mm s then some s else some mm)
      (some (featN m)) (ns.map featN) = some (featN (ns.foldl Nat.max m)) := by
  induction ns generalizing m with
  | nil => rfl
  | cons n rest ih =>
    have hn : n ≤ 999 := hb n (by simp)
    have hrest : ∀ x ∈ rest, x ≤ 999 := fun x hx => hb x (by simp [hx])
    simp only [List.map_cons, List.foldl_cons]
    by_cases hlt : m < n
    · have hmx : Nat.max m n = n := Nat.max_eq_right (Nat.le_of_lt hlt)
      rw [if_pos ((featN_lt_iff m n hm hn).mpr hlt), hmx]
      exact ih n hn hrest
    · have hmx : Nat.max m n = m := Nat.max_eq_left (Nat.le_of_not_lt hlt)
      rw [if_neg (by
        intro hcon
        exact hlt ((featN_lt_iff m n hm hn).mp hcon)), hmx]
      exact ih m hm hrest

lemma idsMax_featN (n0 : Nat) (rest : List Nat) (hb : ∀ n ∈ n0 :: rest, n ≤ 999) :
    idsMax ((n0 :: rest).map featN) = some (featN (maxL (n0 :: rest))) := by
  have h0 : n0 ≤ 999 := hb n0 (by simp)
  have hm : maxL (n0 :: rest) = rest.foldl Nat.max n0 := by
    simp [maxL, List.foldl_cons, Nat.zero_max]
  rw [hm]
  simpa [idsMax, List.map_cons, List.foldl_cons] using
    foldl_idsMax_featN rest n0 h0 (fun x hx => hb x (by simp [hx]))

lemma string_data_FEAT : "FEAT-".data = ['F', 'E', 'A', 'T', '-'] := rfl

lemma replaceFirst_feat (rest : List Char) :
    replaceFirst ("FEAT-".data ++ rest) "FEAT-".data = rest := by
  rw [string_data_FEAT]
  rfl

lemma jsParseInt_digits (a b c : Nat) (ha : a ≤ 9) (hb : b ≤ 9) (hc : c ≤ 9) :
    jsParseInt [digitChar a, digitChar b, digitChar c] =
      some (100 * a + 10 * b + c) := by
  have h1 := isJsSpace_digitChar a ha
  have h2 := isDigit_digitChar a ha
  have h3 := isDigit_digitChar b hb
  have h4 := isDigit_digitChar c hc
  have t1 := toNat_digitChar a ha
  have t2 := toNat_digitChar b hb
  have t3 := toNat_digitChar c hc
  simp [jsParseInt, List.dropWhile, List.takeWhile, h1, h2, h3, h4,
    digitsVal, List.foldl, t1, t2, t3]
  omega

lemma nextIdFrom_featN (M : Nat) (hM : M ≤ 999) :
    nextIdFrom (featN M) = featN (M + 1) := by
  unfold nextIdFrom
  rw [show (featN M).data = "FEAT-".data ++ padStart3 (decimalRepr M) from rfl,
    replaceFirst_feat, pad3_eq _ hM,
    jsParseInt_digits _ _ _ (by omega) (by omega) (by omega),
    show 100 * (M / 100) + 10 * (M / 10 % 10) + M % 10 = M by omega]
  rfl

/-- Characterization of `nextId` on a store whose ids are exactly the
canonical forms of `ns` (all at most 999): the result is `FEAT-` of the
numeric maximum plus one. -/
lemma nextId_featN (store : Store) (ns : List Nat)
    (hmap : store.map Feature.id = ns.map featN)
    (hb : ∀ n ∈ ns, n ≤ 999) :
    nextId store = featN (maxL ns + 1) := by
  unfold nextId maxIdRow
  rw [hmap]
  cases ns with
  | nil => decide
  | cons n0 rest =>
    rw [idsMax_featN n0 rest hb]
    exact nextIdFrom_featN _ (maxL_le _ _ hb)

/-- C3 counterexample.  From FEAT-999 `nextId` returns FEAT-1000, but after
creating FEAT-1000 the next call returns FEAT-1000 again, not FEAT-1001:
`ORDER BY id DESC` is bytewise, and `FEAT-999` sorts above `FEAT-1000`.
Strict monotonicity therefore fails at N = 1000. -/
theorem nextId_not_monotonic_beyond_999 :
    nextId c3Store = "FEAT-1000" ∧
      nextId (c3Store ++ [{ id := "FEAT-1000" }]) = "FEAT-1000" ∧
      nextId (c3Store ++ [{ id := "FEAT-1000" }]) ≠ "FEAT-1001" :=
  ⟨by decide, by decide, by decide⟩

/-- C3 amended: `nextId` returns FEAT-001 on an empty store (the `ns = []`
instance), and is strictly monotonic as long as every stored id is a
three-digit `FEAT-NNN`: if the ids are the canonical forms of `ns` with
every N at most 998, the call returns FEAT-(max+1), and after creating that
feature the next call returns FEAT-(max+2), zero-padded to three digits.
Beyond FEAT-999 the bytewise id scan breaks monotonicity (the C3
counterexample). -/
theorem nextId_monotonic_three_digits (store : Store) (ns : List Nat)
    (hmap : store.map Feature.id = ns.map featN)
    (hb : ∀ n ∈ ns, n ≤ 998) :
    nextId store = featN (maxL ns + 1) ∧
      ∀ store2 : Store,
        store2.map Feature.id = ns.map featN ++ [featN (maxL ns + 1)] →
        nextId store2 = featN (maxL ns + 2) := by
  have hb9 : ∀ n ∈ ns, n ≤ 999 := fun n hn => Nat.le_trans (hb n hn) (by omega)
  constructor
  · exact nextId_featN store ns hmap hb9
  · intro store2 hmap2
    have hM : maxL ns ≤ 998 := maxL_le _ _ hb
    have hmap2' : store2.map Feature.id = (ns ++ [maxL ns + 1]).map featN := by
      rw [List.map_append]
      simpa using hmap2
    have hb2 : ∀ n ∈ ns ++ [maxL ns + 1], n ≤ 999 := by
      intro n hn
      rcases List.mem_append.mp hn with h | h
      · exact hb9 n h
      · simp only [List.mem_singleton] at h
        omega
    rw [nextId_featN store2 (ns ++ [maxL ns + 1]) hmap2' hb2]
    have hfold : maxL (ns ++ [maxL ns + 1]) = maxL ns + 1 := by
      have h1 : maxL (ns ++ [maxL ns + 1]) = Nat.max (maxL ns) (maxL ns + 1) := by
        unfold maxL
        rw [List.foldl_append]
        rfl
      rw [h1]
      exact Nat.max_eq_right (by omega)
    rw [hfold]

/-- Witness for the amended C3 theorem on the store {FEAT-001, FEAT-002}. -/
theorem nextId_monotonic_three_digits_witness :
    nextId [{ id := "FEAT-001" }, { id := "FEAT-002" }] = featN 3 ∧
      nextId [{ id := "FEAT-001" }, { id := "FEAT-002" }, { id := featN 3 }] = featN 4 := by
  have h := nextId_monotonic_three_digits
    [{ id := "FEAT-001" }, { id := "FEAT-002" }] [1, 2] (by decide) (by decide)
  exact ⟨h.1, h.2 [{ id := "FEAT-001" }, { id := "FEAT-002" }, { id := featN 3 }] (by decide)⟩

lemma mem_allIds_of_feature {S : Store} {f : Feature} (hf : f ∈ S) :
    f.id ∈ allIds S := by
  unfold allIds
  simp only [Finset.mem_union, List.mem_toFinset, List.mem_map]
  exact Or.inl ⟨f, hf, rfl⟩

lemma mem_allIds_of_dep {S : Store} {fid x : String} (hx : x ∈ depsOf S fid) :
    x ∈ allIds S := by
  unfold depsOf at hx
  cases h : getFeature S fid with
  | none => rw [h] at hx; simp at hx
  | some f =>
    rw [h] at hx
    have hf := getFeature_eq_some_mem h
    unfold allIds
    simp only [Finset.mem_union, List.mem_toFinset, List.mem_flatten, List.mem_map]
    exact Or.inr ⟨f.depends_on, ⟨f, hf.1, rfl⟩, hx⟩

lemma depEdge_of_dep {S : Store} {fid x : String} (hx : x ∈ depsOf S fid) :
    depEdge S fid x := by
  unfold depsOf at hx
  cases h : getFeature S fid with
  | none => rw [h] at hx; simp at hx
  | some f =>
    rw [h] at hx
    have hf := getFeature_eq_some_mem h
    exact ⟨f, hf.1, hf.2, hx⟩

lemma visitList_visited_mono (S : Store) :
    ∀ (fuel : Nat) (stack : List String) (st : DfsSt) (ids : List String) (st2 : DfsSt),
      visitList S fuel stack st ids = .ok st2 → st.visited ⊆ st2.visited := by
  intro fuel
  induction fuel with
  | zero =>
    intro stack st ids st2 h
    simp [visitList] at h
  | succ fuel ih =>
    intro stack st ids st2 h
    cases ids with
    | nil =>
      simp only [visitList, Except.ok.injEq] at h
      subst h
      exact fun x hx => hx
    | cons fid rest =>
      simp only [visitList] at h
      by_cases h1 : fid ∈ st.visited
      · rw [if_pos h1] at h
        exact ih stack st rest st2 h
      · rw [if_neg h1] at h
        by_cases h2 : fid ∈ stack
        · rw [if_pos h2] at h
          exact absurd h (by simp)
        · rw [if_neg h2] at h
          cases hc : visitList S fuel (fid :: stack) st (depsOf S fid) with
          | error e => rw [hc] at h; exact absurd h (by simp)
          | ok stMid =>
            rw [hc] at h
            have m1 := ih _ _ _ _ hc
            have m2 := ih _ _ _ _ h
            intro x hx
            exact m2 (by
              simp only [List.mem_cons]
              exact Or.inr (m1 hx))

lemma cyc_ne_fuel (s : String) : ("Circular dependency: " ++ s) ≠ "out of fuel" := by
  intro h
  have h2 := congrArg String.length h
  rw [String.length_append] at h2
  have e1 : "Circular dependency: ".length = 21 := rfl
  have e2 : "out of fuel".length = 11 := rfl
  rw [e1, e2] at h2
  omega

lemma restWeight_le_of_subset (S : Store) (e1 e2 : List String)
    (h : e1.toFinset ⊆ e2.toFinset) : restWeight S e2 ≤ restWeight S e1 :=
  Finset.sum_le_sum_of_subset (Finset.sdiff_subset_sdiff (le_refl _) h)

lemma restWeight_split (S : Store) (excl : List String) (fid : String)
    (hmem : fid ∈ allIds S) (hnot : fid ∉ excl) :
    restWeight S excl = idWeight S fid + restWeight S (fid :: excl) := by
  unfold restWeight
  rw [List.toFinset_cons]
  have hset : allIds S \ excl.toFinset =
      insert fid (allIds S \ insert fid excl.toFinset) := by
    ext x
    by_cases hx : x = fid
    · subst hx
      simp [hmem, hnot]
    · simp [hx]
  rw [hset, Finset.sum_insert (by simp)]

lemma restWeight_comm (S : Store) (v stack : List String) (fid : String) :
    restWeight S (v ++ fid :: stack) = restWeight S (fid :: (v ++ stack)) := by
  unfold restWeight
  have hts : (v ++ fid :: stack).toFinset = (fid :: (v ++ stack)).toFinset := by
    ext x
    simp only [List.mem_toFinset, List.mem_append, List.mem_cons]
    tauto
  rw [hts]

lemma visitList_ne_fuel_error (S : Store) :
    ∀ (fuel : Nat) (stack : List String) (st : DfsSt) (ids : List String),
      (∀ x ∈ ids, x ∈ allIds S) →
      ids.length + 1 + restWeight S (st.visited ++ stack) ≤ fuel →
      visitList S fuel stack st ids ≠ .error "out of fuel" := by
  intro fuel
  induction fuel with
  | zero =>
    intro stack st ids hids hfuel
    exact absurd hfuel (by omega)
  | succ fuel ih =>
    intro stack st ids hids hfuel
    cases ids with
    | nil => simp [visitList]
    | cons fid rest =>
      simp only [visitList]
      simp only [List.length_cons] at hfuel
      by_cases h1 : fid ∈ st.visited
      · rw [if_pos h1]
        exact ih stack st rest (fun x hx => hids x (by simp [hx])) (by omega)
      · rw [if_neg h1]
        by_cases h2 : fid ∈ stack
        · rw [if_pos h2]
          intro hcon
          simp only [Except.error.injEq] at hcon
          exact cyc_ne_fuel fid hcon
        · rw [if_neg h2]
          have hfidA : fid ∈ allIds S := hids fid (by simp)
          have hnotex : fid ∉ st.visited ++ stack := by
            simp [List.mem_append, h1, h2]
          have hsplit := restWeight_split S (st.visited ++ stack) fid hfidA hnotex
          have hw : idWeight S fid = (depsOf S fid).length + 2 := rfl
          have hchild : visitList S fuel (fid :: stack) st (depsOf S fid) ≠
              .error "out of fuel" := by
            apply ih (fid :: stack) st (depsOf S fid)
              (fun x hx => mem_allIds_of_dep hx)
            rw [restWeight_comm]
            omega
          cases hc : visitList S fuel (fid :: stack) st (depsOf S fid) with
          | error e =>
            rw [hc] at hchild
            exact hchild
          | ok stMid =>
            have hmono := visitList_visited_mono S fuel (fid :: stack) st
              (depsOf S fid) stMid hc
            show visitList S fuel stack
              { visited := fid :: stMid.visited,
                sorted := stMid.sorted ++
                  (match getFeature S fid with
                   | some f => [f]
                   | none => []) } rest ≠ .error "out of fuel"
            apply ih stack _ rest (fun x hx => hids x (by simp [hx]))
            have hsub : (st.visited ++ stack).toFinset ⊆
                ((fid :: stMid.visited) ++ stack).toFinset := by
              intro x hx
              simp only [List.mem_toFinset, List.mem_append, List.mem_cons] at hx ⊢
              rcases hx with hv | hs
              · exact Or.inl (Or.inr (hmono hv))
              · exact Or.inr hs
            have hle := restWeight_le_of_subset S _ _ hsub
            show rest.length + 1 + restWeight S ((fid :: stMid.visited) ++ stack) ≤ fuel
            omega

lemma getFeature_of_mem_nodup {S : Store} (hnd : (S.map Feature.id).Nodup)
    {g : Feature} (hg : g ∈ S) : getFeature S g.id = some g := by
  induction S with
  | nil => simp at hg
  | cons f rest ih =>
    rw [List.map_cons] at hnd
    have hnd' := List.nodup_cons.mp hnd
    rcases List.mem_cons.mp hg with rfl | hg2
    · unfold getFeature
      exact List.find?_cons_of_pos rest (by simp)
    · have hne : ¬ ((f.id == g.id) = true) := by
        simp only [beq_iff_eq]
        intro hcon
        exact hnd'.1 (hcon ▸ List.mem_map_of_mem Feature.id hg2)
      unfold getFeature
      rw [List.find?_cons_of_neg rest hne]
      exact ih hnd'.2 hg2

lemma unique_of_id_eq {S : Store} (hnd : (S.map Feature.id).Nodup)
    {f g : Feature} (hf : f ∈ S) (hg : g ∈ S) (h : f.id = g.id) : f = g := by
  have h1 := getFeature_of_mem_nodup hnd hf
  have h2 := getFeature_of_mem_nodup hnd hg
  rw [h] at h1
  rw [h1] at h2
  exact (Option.some.injEq _ _ ▸ h2 : f = g)

lemma append_singleton_split {α : Type} {l1 l2 s : List α} {f g : α}
    (h : l1 ++ f :: l2 = s ++ [g]) :
    (l1 = s ∧ f = g ∧ l2 = []) ∨ (∃ l2a, l2 = l2a ++ [g] ∧ s = l1 ++ f :: l2a) := by
  rcases List.append_eq_append_iff.mp h with ⟨a2, ha1, ha2⟩ | ⟨c2, hc1, hc2⟩
  · cases a2 with
    | nil =>
      simp only [List.nil_append, List.cons.injEq] at ha2
      simp only [List.append_nil] at ha1
      exact Or.inl ⟨ha1.symm, ha2.1, ha2.2⟩
    | cons x t =>
      simp only [List.cons_append, List.cons.injEq] at ha2
      right
      refine ⟨t, ha2.2, ?_⟩
      rw [ha1, ha2.1]
  · cases c2 with
    | nil =>
      simp only [List.nil_append, List.cons.injEq] at hc2
      simp only [List.append_nil] at hc1
      exact Or.inl ⟨hc1, hc2.1.symm, hc2.2.symm⟩
    | cons y t =>
      simp only [List.cons_append, List.cons.injEq] at hc2
      exact absurd hc2.2.symm (by simp)

lemma dfsInv_mk (S : Store) (v : List String) (s : List Feature)
    (h1 : ∀ g ∈ S, (g.id ∈ v ↔ g ∈ s))
    (h2 : (s.map Feature.id).Nodup)
    (h3 : ∀ f ∈ s, f ∈ S)
    (h4 : ∀ l1 f l2, s = l1 ++ f :: l2 →
      ∀ d ∈ f.depends_on, ∀ g ∈ S, g.id = d → g ∈ l1) :
    DfsInv S ⟨v, s⟩ := ⟨h1, h2, h3, h4⟩

lemma mark_inv (S : Store) (hnd : (S.map Feature.id).Nodup) (fid : String)
    (stMid : DfsSt) (hiMid : DfsInv S stMid)
    (hfidNot : fid ∉ stMid.visited)
    (hdeps : ∀ x ∈ depsOf S fid, x ∈ stMid.visited) :
    DfsInv S { visited := fid :: stMid.visited,
               sorted := stMid.sorted ++
                 (match getFeature S fid with
                  | some f => [f]
                  | none => []) } := by
  obtain ⟨hA, hB, hC, hD⟩ := hiMid
  cases hf : getFeature S fid with
  | none =>
    have hno : ∀ g ∈ S, g.id ≠ fid := by
      intro g hg hcon
      have := List.find?_eq_none.mp hf g hg
      simp [hcon] at this
    refine dfsInv_mk S (fid :: stMid.visited) (stMid.sorted ++ []) ?_ ?_ ?_ ?_
    · intro g hg
      simp only [List.mem_cons, List.append_nil]
      constructor
      · intro hmem
        rcases hmem with heq | hv
        · exact absurd heq (hno g hg)
        · exact (hA g hg).mp hv
      · intro hs
        exact Or.inr ((hA g hg).mpr hs)
    · simpa using hB
    · simpa using hC
    · intro l1 g l2 hsplit
      simp only [List.append_nil] at hsplit
      exact hD l1 g l2 hsplit
  | some f =>
    have hfm := getFeature_eq_some_mem hf
    have hfS : f ∈ S := hfm.1
    have hfid : f.id = fid := hfm.2
    have hfNotSorted : f ∉ stMid.sorted := by
      intro hcon
      exact hfidNot (hfid ▸ (hA f hfS).mpr hcon)
    refine dfsInv_mk S (fid :: stMid.visited) (stMid.sorted ++ [f]) ?_ ?_ ?_ ?_
    · intro g hg
      simp only [List.mem_cons, List.mem_append, List.mem_singleton]
      by_cases hgf : g.id = fid
      · have hgf2 : g = f := unique_of_id_eq hnd hg hfS (by rw [hgf, hfid])
        subst hgf2
        simp [hgf]
      · constructor
        · intro hmem
          rcases hmem with heq | hv
          · exact absurd heq hgf
          · exact Or.inl ((hA g hg).mp hv)
        · intro hs
          rcases hs with hs | heq | hnil
          · exact Or.inr ((hA g hg).mpr hs)
          · subst heq
            exact absurd hfid hgf
          · simp at hnil
    · rw [List.map_append]
      rw [List.nodup_append]
      refine ⟨hB, by simp, ?_⟩
      intro x hx
      simp only [List.mem_map] at hx
      obtain ⟨g, hgs, hgid⟩ := hx
      simp only [List.map_cons, List.map_nil, List.mem_singleton]
      intro hxf
      have hgf : g = f :=
        unique_of_id_eq hnd (hC g hgs) hfS (by rw [hgid, hxf])
      exact hfNotSorted (hgf ▸ hgs)
    · intro x hx
      rcases List.mem_append.mp hx with hx1 | hx2
      · exact hC x hx1
      · simp only [List.mem_singleton] at hx2
        subst hx2
        exact hfS
    · intro l1 g l2 hsplit d hd gg hggS hggid
      rcases append_singleton_split hsplit.symm with ⟨hl1, hgf, _⟩ | ⟨l2a, _, hsor⟩
      · subst hgf
        have hdmem : d ∈ depsOf S fid := by
          unfold depsOf
          rw [hf]
          exact hd
        have hdv : d ∈ stMid.visited := hdeps d hdmem
        rw [hl1]
        exact (hA gg hggS).mp (hggid ▸ hdv)
      · exact hD l1 g l2a hsor d hd gg hggS hggid

lemma visitList_inv (S : Store) (hnd : (S.map Feature.id).Nodup) :
    ∀ (fuel : Nat) (stack : List String) (st : DfsSt) (ids : List String) (st2 : DfsSt),
      visitList S fuel stack st ids = .ok st2 →
      DfsInv S st →
      (∀ x ∈ stack, x ∉ st.visited) →
      DfsInv S st2 ∧ (∃ t, st2.sorted = st.sorted ++ t) ∧
        (∀ x ∈ ids, x ∈ st2.visited) ∧ (∀ x ∈ stack, x ∉ st2.visited) := by
  intro fuel
  induction fuel with
  | zero =>
    intro stack st ids st2 h
    simp [visitList] at h
  | succ fuel ih =>
    intro stack st ids st2 h hinv hstack
    cases ids with
    | nil =>
      simp only [visitList, Except.ok.injEq] at h
      subst h
      exact ⟨hinv, ⟨[], by simp⟩, by simp, hstack⟩
    | cons fid rest =>
      simp only [visitList] at h
      by_cases h1 : fid ∈ st.visited
      · rw [if_pos h1] at h
        obtain ⟨hi, ht, hv, hs⟩ := ih stack st rest st2 h hinv hstack
        refine ⟨hi, ht, ?_, hs⟩
        intro x hx
        rcases List.mem_cons.mp hx with rfl | hx2
        · exact visitList_visited_mono S fuel stack st rest st2 h h1
        · exact hv x hx2
      · rw [if_neg h1] at h
        by_cases h2 : fid ∈ stack
        · rw [if_pos h2] at h
          exact absurd h (by simp)
        · rw [if_neg h2] at h
          cases hc : visitList S fuel (fid :: stack) st (depsOf S fid) with
          | error e =>
            rw [hc] at h
            exact absurd h (by simp)
          | ok stMid =>
            rw [hc] at h
            have hstack2 : ∀ x ∈ fid :: stack, x ∉ st.visited := by
              intro x hx
              rcases List.mem_cons.mp hx with rfl | hx2
              · exact h1
              · exact hstack x hx2
            obtain ⟨hiMid, ⟨t, htMid⟩, hvMid, hsMid⟩ := ih _ _ _ _ hc hinv hstack2
            have hfidNotMid : fid ∉ stMid.visited := hsMid fid (by simp)
            have hinvMark := mark_inv S hnd fid stMid hiMid hfidNotMid hvMid
            have hstackMark : ∀ x ∈ stack,
                x ∉ (fid :: stMid.visited) := by
              intro x hx hcon
              rcases List.mem_cons.mp hcon with rfl | hin
              · exact h2 hx
              · exact hsMid x (by simp [hx]) hin
            obtain ⟨hi2, ⟨t2, ht2⟩, hv2, hs2⟩ := ih stack _ rest st2 h hinvMark hstackMark
            refine ⟨hi2, ?_, ?_, hs2⟩
            · refine ⟨t ++ (match getFeature S fid with
                | some f => [f]
                | none => []) ++ t2, ?_⟩
              rw [ht2]
              show stMid.sorted ++ _ ++ t2 = _
              rw [htMid]
              simp [List.append_assoc]
            · intro x hx
              rcases List.mem_cons.mp hx with rfl | hx2
              · exact visitList_visited_mono S fuel stack _ rest st2 h
                  (List.mem_cons_self x stMid.visited)
              · exact hv2 x hx2

lemma chain_reach (S : Store) :
    ∀ (l : List String), List.Chain' (fun a b => depEdge S b a) l →
      ∀ x ∈ l, ∀ h, l.head? = some h →
        Relation.ReflTransGen (depEdge S) x h := by
  intro l
  induction l with
  | nil =>
    intro _ x hx
    simp at hx
  | cons a rest ih =>
    intro hch x hx h hh
    simp only [List.head?_cons, Option.some.injEq] at hh
    subst hh
    rcases List.mem_cons.mp hx with rfl | hx2
    · exact Relation.ReflTransGen.refl
    · cases rest with
      | nil => simp at hx2
      | cons b t =>
        have hr : depEdge S b a := hch.rel_head
        have hch2 := hch.tail
        have hxa := ih hch2 x hx2 b rfl
        exact Relation.ReflTransGen.tail hxa hr

lemma visitList_error_cycle (S : Store) :
    ∀ (fuel : Nat) (stack : List String) (st : DfsSt) (ids : List String) (e : String),
      visitList S fuel stack st ids = .error e →
      e ≠ "out of fuel" →
      List.Chain' (fun a b => depEdge S b a) stack →
      (∀ x ∈ ids, ∀ h0 t, stack = h0 :: t → depEdge S h0 x) →
      ∃ cid, e = "Circular dependency: " ++ cid ∧
        Relation.TransGen (depEdge S) cid cid := by
  intro fuel
  induction fuel with
  | zero =>
    intro stack st ids e h hne _ _
    simp only [visitList, Except.error.injEq] at h
    exact absurd h.symm hne
  | succ fuel ih =>
    intro stack st ids e h hne hch hids
    cases ids with
    | nil => simp [visitList] at h
    | cons fid rest =>
      simp only [visitList] at h
      by_cases h1 : fid ∈ st.visited
      · rw [if_pos h1] at h
        exact ih stack st rest e h hne hch (fun x hx => hids x (by simp [hx]))
      · rw [if_neg h1] at h
        by_cases h2 : fid ∈ stack
        · rw [if_pos h2] at h
          simp only [Except.error.injEq] at h
          refine ⟨fid, h.symm, ?_⟩
          cases stack with
          | nil => simp at h2
          | cons h0 t =>
            have hedge : depEdge S h0 fid := hids fid (by simp) h0 t rfl
            have hrtg := chain_reach S (h0 :: t) hch fid h2 h0 rfl
            exact Relation.TransGen.tail' hrtg hedge
        · rw [if_neg h2] at h
          cases hc : visitList S fuel (fid :: stack) st (depsOf S fid) with
          | error e2 =>
            rw [hc] at h
            simp only [Except.error.injEq] at h
            subst h
            apply ih (fid :: stack) st (depsOf S fid) e2 hc hne
            · cases stack with
              | nil => simp
              | cons h0 t =>
                rw [List.chain'_cons]
                exact ⟨hids fid (by simp) h0 t rfl, hch⟩
            · intro x hx h0 t hcons
              simp only [List.cons.injEq] at hcons
              rw [← hcons.1] at *
              exact hcons.1 ▸ depEdge_of_dep hx
          | ok stMid =>
            rw [hc] at h
            exact ih stack _ rest e h hne hch (fun x hx => hids x (by simp [hx]))

lemma idx_lt_of_split {out : List Feature} (hnd : (out.map Feature.id).Nodup)
    {l1 : List Feature} {f g : Feature} {l2 : List Feature}
    (hsplit : out = l1 ++ f :: l2) (hg : g ∈ l1) :
    (out.map Feature.id).indexOf g.id < (out.map Feature.id).indexOf f.id := by
  subst hsplit
  rw [List.map_append, List.map_cons] at hnd ⊢
  have hgmem : g.id ∈ l1.map Feature.id := List.mem_map_of_mem Feature.id hg
  have hfnot : f.id ∉ l1.map Feature.id := by
    intro hcon
    have hdis := (List.nodup_append.mp hnd).2.2
    exact hdis hcon (List.mem_cons_self f.id _)
  rw [List.indexOf_append_of_mem hgmem, List.indexOf_append_of_not_mem hfnot,
    List.indexOf_cons_self]
  have := List.indexOf_lt_length.mpr hgmem
  omega

lemma no_cycle_of_topo (store : Store) (out : List Feature)
    (hnd_out : (out.map Feature.id).Nodup)
    (hmem : ∀ f, f ∈ out ↔ f ∈ store)
    (htopo : ∀ l1 f l2, out = l1 ++ f :: l2 →
      ∀ d ∈ f.depends_on, ∀ g ∈ store, g.id = d → g ∈ l1) :
    ∀ x, ¬ Relation.TransGen (depEdge store) x x := by
  have edge_lt : ∀ a c, depEdge store a c → ∀ gc ∈ store, gc.id = c →
      (out.map Feature.id).indexOf c < (out.map Feature.id).indexOf a := by
    intro a c hedge gc hgcS hgcid
    obtain ⟨fa, hfaS, hfaid, hcdep⟩ := hedge
    have hfaOut : fa ∈ out := (hmem fa).mpr hfaS
    obtain ⟨l1, l2, hsplit⟩ := List.append_of_mem hfaOut
    have hgcl1 : gc ∈ l1 := htopo l1 fa l2 hsplit c hcdep gc hgcS hgcid
    have := idx_lt_of_split hnd_out hsplit hgcl1
    rw [hgcid, hfaid] at this
    exact this
  have first_feature : ∀ a b, Relation.TransGen (depEdge store) a b →
      ∃ f ∈ store, f.id = a := by
    intro a b htg
    induction htg using Relation.TransGen.head_induction_on with
    | base hedge =>
      obtain ⟨f, h1, h2, _⟩ := hedge
      exact ⟨f, h1, h2⟩
    | ih hedge _ _ =>
      obtain ⟨f, h1, h2, _⟩ := hedge
      exact ⟨f, h1, h2⟩
  have key : ∀ b a, Relation.TransGen (depEdge store) a b →
      ∀ gb ∈ store, gb.id = b →
      (out.map Feature.id).indexOf b < (out.map Feature.id).indexOf a := by
    intro b a htg
    induction htg using Relation.TransGen.head_induction_on with
    | base hedge =>
      intro gb hgbS hgbid
      exact edge_lt _ _ hedge gb hgbS hgbid
    | ih hedge htg2 ihp =>
      intro gb hgbS hgbid
      rename_i x c
      obtain ⟨fc, hfcS, hfcid⟩ := first_feature c b htg2
      have h1 := ihp gb hgbS hgbid
      have h2 := edge_lt x c hedge fc hfcS hfcid
      omega
  intro x htg
  obtain ⟨fx, hfxS, hfxid⟩ := first_feature x x htg
  exact absurd (key x x htg fx hfxS hfxid) (by omega)

lemma depEdge_listById (store : Store) (a b : String) :
    depEdge (listById store) a b ↔ depEdge store a b := by
  have hperm : (listById store).Perm store := List.perm_insertionSort idLe store
  constructor
  · rintro ⟨f, hf, h1, h2⟩
    exact ⟨f, hperm.mem_iff.mp hf, h1, h2⟩
  · rintro ⟨f, hf, h1, h2⟩
    exact ⟨f, hperm.mem_iff.mpr hf, h1, h2⟩

lemma dfsInv_init (S : Store) : DfsInv S ⟨[], []⟩ := by
  refine dfsInv_mk S [] [] ?_ ?_ ?_ ?_
  · intro g _
    simp
  · simp
  · intro f hf
    simp at hf
  · intro l1 f l2 hq
    have := congrArg List.length hq
    simp [List.length_append] at this
    omega

/-- C9: on a store with unique ids, `resolveOrder` either succeeds — and
the output contains every stored feature exactly once, in an order where
each feature appears after every existing feature it depends on — or, when
the `depends_on` graph has a cycle (including a self-loop), it raises
"Circular dependency: {id}" for some id that lies on a cycle. -/
theorem resolveOrder_topo_or_cycle (store : Store)
    (hnd : (store.map Feature.id).Nodup) :
    (∀ out, resolveOrder store = .ok out →
       (∀ f, f ∈ out ↔ f ∈ store) ∧ (out.map Feature.id).Nodup ∧
       (∀ l1 f l2, out = l1 ++ f :: l2 →
          ∀ d ∈ f.depends_on, ∀ g ∈ store, g.id = d → g ∈ l1)) ∧
    ((∃ x, Relation.TransGen (depEdge store) x x) →
       ∃ cid, resolveOrder store = .error ("Circular dependency: " ++ cid) ∧
         Relation.TransGen (depEdge store) cid cid) := by
  have hperm : (listById store).Perm store := List.perm_insertionSort idLe store
  have hndS : ((listById store).map Feature.id).Nodup :=
    ((hperm.map Feature.id).nodup_iff).mpr hnd
  have hsucc : ∀ stF, visitList (listById store) (dfsFuel (listById store)) []
      ⟨[], []⟩ ((listById store).map Feature.id) = .ok stF →
      (∀ f, f ∈ stF.sorted ↔ f ∈ store) ∧ (stF.sorted.map Feature.id).Nodup ∧
      (∀ l1 f l2, stF.sorted = l1 ++ f :: l2 →
        ∀ d ∈ f.depends_on, ∀ g ∈ store, g.id = d → g ∈ l1) := by
    intro stF hrun
    obtain ⟨⟨hA, hB, hC, hD⟩, _, hv, _⟩ :=
      visitList_inv (listById store) hndS _ [] ⟨[], []⟩ _ stF hrun
        (dfsInv_init _) (by simp)
    refine ⟨?_, hB, ?_⟩
    · intro f
      constructor
      · intro hf
        exact hperm.mem_iff.mp (hC f hf)
      · intro hf
        have hfS : f ∈ listById store := hperm.mem_iff.mpr hf
        exact (hA f hfS).mp (hv f.id (List.mem_map_of_mem Feature.id hfS))
    · intro l1 f l2 hsplit d hd g hgStore hgid
      exact hD l1 f l2 hsplit d hd g (hperm.mem_iff.mpr hgStore) hgid
  constructor
  · intro out hok
    unfold resolveOrder at hok
    cases hrun : visitList (listById store) (dfsFuel (listById store)) []
        ⟨[], []⟩ ((listById store).map Feature.id) with
    | error e =>
      rw [hrun] at hok
      exact absurd hok (by simp)
    | ok stF =>
      rw [hrun] at hok
      simp only [Except.ok.injEq] at hok
      subst hok
      exact hsucc stF hrun
  · rintro ⟨x, hx⟩
    cases hrun : visitList (listById store) (dfsFuel (listById store)) []
        ⟨[], []⟩ ((listById store).map Feature.id) with
    | ok stF =>
      obtain ⟨hmem, hndout, htopo⟩ := hsucc stF hrun
      exact absurd hx (no_cycle_of_topo store stF.sorted hndout hmem htopo x)
    | error e =>
      have hnefuel : e ≠ "out of fuel" := by
        intro hcon
        subst hcon
        refine visitList_ne_fuel_error (listById store) _ [] ⟨[], []⟩ _ ?_ ?_ hrun
        · intro y hy
          simp only [List.mem_map] at hy
          obtain ⟨f, hf, rfl⟩ := hy
          exact mem_allIds_of_feature hf
        · show (List.map Feature.id (listById store)).length + 1 +
            restWeight (listById store) ([] ++ []) ≤ dfsFuel (listById store)
          rw [List.length_map]
          exact Nat.le_refl _
      obtain ⟨cid, hcid, hcyc⟩ :=
        visitList_error_cycle (listById store) _ [] ⟨[], []⟩ _ e hrun hnefuel
          (by simp)
          (by
            intro y hy h0 t hcon
            exact absurd hcon (by simp))
      refine ⟨cid, ?_, ?_⟩
      · unfold resolveOrder
        rw [hrun, hcid]
      · exact Relation.TransGen.mono
          (fun a b h => (depEdge_listById store a b).mp h) hcyc

/-- Witness for C9: on the self-loop store the cycle branch fires, naming an
id on the cycle. -/
theorem resolveOrder_topo_or_cycle_witness :
    ∃ cid, resolveOrder c9Store = .error ("Circular dependency: " ++ cid) ∧
      Relation.TransGen (depEdge c9Store) cid cid :=
  (resolveOrder_topo_or_cycle c9Store (by decide)).2
    ⟨"FEAT-001", Relation.TransGen.single
      ⟨{ id := "FEAT-001", depends_on := ["FEAT-001"] }, by decide, rfl, by decide⟩⟩

lemma collectIds_eq_from (store : Store) (C : String) (k : Nat) :
    collectIds store C k = collectFrom store C 1 k := by
  unfold collectIds collectFrom
  congr 1
  funext i
  rw [Nat.add_comm]

lemma find?_append_right {α : Type} (p : α → Bool) (l1 l2 : List α)
    (h : ∀ a ∈ l1, p a = false) : (l1 ++ l2).find? p = l2.find? p := by
  induction l1 with
  | nil => rfl
  | cons a t ih =>
    rw [List.cons_append, List.find?_cons_of_neg _ (by simp [h a (by simp)])]
    exact ih (fun x hx => h x (by simp [hx]))

lemma strLtList_irrefl (l : List Char) : strLtList l l = false := by
  induction l with
  | nil => rfl
  | cons c cs ih => simp [strLtList, ih]

/-- `featN` is injective on numbers at most 999. -/
lemma featN_inj (a b : Nat) (ha : a ≤ 999) (hb : b ≤ 999)
    (h : featN a = featN b) : a = b := by
  by_contra hne
  rcases Nat.lt_or_ge a b with hlt | hge
  · have hs := (featN_lt_iff a b ha hb).mpr hlt
    rw [h] at hs
    have : strLtList (featN b).data (featN b).data = true := hs
    rw [strLtList_irrefl] at this
    exact Bool.noConfusion this
  · have hlt : b < a := by omega
    have hs := (featN_lt_iff b a hb ha).mpr hlt
    rw [h] at hs
    have : strLtList (featN b).data (featN b).data = true := hs
    rw [strLtList_irrefl] at this
    exact Bool.noConfusion this

lemma le_foldl_max (ns : List Nat) (n : Nat) :
    ∀ m, (n ∈ ns ∨ n ≤ m) → n ≤ ns.foldl Nat.max m := by
  induction ns with
  | nil =>
    intro m h
    rcases h with h | h
    · simp at h
    · exact h
  | cons a t ih =>
    intro m h
    rw [List.foldl_cons]
    rcases h with h | h
    · rcases List.mem_cons.mp h with rfl | h2
      · exact ih (Nat.max m n) (Or.inr (Nat.le_max_right m n))
      · exact ih (Nat.max m a) (Or.inl h2)
    · exact ih (Nat.max m a) (Or.inr (Nat.le_trans h (Nat.le_max_left m a)))

lemma le_maxL (ns : List Nat) (n : Nat) (h : n ∈ ns) : n ≤ maxL ns :=
  le_foldl_max ns n 0 (Or.inl h)

lemma maxL_append_one (ns : List Nat) (x : Nat) :
    maxL (ns ++ [x]) = Nat.max (maxL ns) x := by
  unfold maxL
  rw [List.foldl_append]
  rfl

lemma nodup_middle_not_mem {α : Type} {A B : List α} {x : α}
    (h : (A ++ x :: B).Nodup) : x ∉ A ∧ x ∉ B := by
  have h2 := List.nodup_middle.mp h
  have h3 := List.nodup_cons.mp h2
  constructor
  · intro hx
    exact h3.1 (List.mem_append.mpr (Or.inl hx))
  · intro hx
    exact h3.1 (List.mem_append.mpr (Or.inr hx))

lemma createdFeats_map_id (C : String) (reqs scens : List String) :
    ∀ (tgs : List TaskGroup) (g m : Nat),
      (createdFeats C reqs scens g m tgs).map Feature.id = idsFrom m tgs.length := by
  intro tgs
  induction tgs with
  | nil => intro g m; rfl
  | cons tg rest ih =>
    intro g m
    simp only [createdFeats, List.map_cons, List.length_cons, idsFrom]
    rw [ih (g + 1) (m + 1)]
    rfl

lemma wiredFeats_map_id (C : String) (reqs scens : List String) :
    ∀ (tgs : List TaskGroup) (g m : Nat) (p : Option String),
      (wiredFeats C reqs scens g m p tgs).map Feature.id = idsFrom m tgs.length := by
  intro tgs
  induction tgs with
  | nil => intro g m p; rfl
  | cons tg rest ih =>
    intro g m p
    simp only [wiredFeats, List.map_cons, List.length_cons, idsFrom]
    rw [ih (g + 1) (m + 1) (some (featN (m + 1)))]
    rfl

lemma mem_idsFrom (x : String) :
    ∀ (k m : Nat), x ∈ idsFrom m k ↔ ∃ i, i < k ∧ x = featN (m + i + 1) := by
  intro k
  induction k with
  | zero =>
    intro m
    simp [idsFrom]
  | succ k2 ih =>
    intro m
    simp only [idsFrom, List.mem_cons, ih (m + 1)]
    constructor
    · rintro (rfl | ⟨i, hi, rfl⟩)
      · exact ⟨0, by omega, by rw [Nat.add_zero]⟩
      · exact ⟨i + 1, by omega, by rw [show m + (i + 1) + 1 = m + 1 + i + 1 by omega]⟩
    · rintro ⟨i, hi, rfl⟩
      cases i with
      | zero => exact Or.inl (by rw [Nat.add_zero])
      | succ j =>
        exact Or.inr ⟨j, by omega, by rw [show m + (j + 1) + 1 = m + 1 + j + 1 by omega]⟩

lemma idsFrom_nodup : ∀ (k m : Nat), m + k ≤ 999 → (idsFrom m k).Nodup := by
  intro k
  induction k with
  | zero => intro m _; exact List.nodup_nil
  | succ k2 ih =>
    intro m hm
    rw [idsFrom]
    refine List.nodup_cons.mpr ⟨?_, ih (m + 1) (by omega)⟩
    intro hmem
    rcases (mem_idsFrom _ _ _).mp hmem with ⟨i, hi, heq⟩
    have := featN_inj (m + 1) (m + 1 + i + 1) (by omega) (by omega) heq
    omega

/-- Looking up a feature by id in a store that holds it, with no
earlier row sharing the id. -/
lemma getFeature_at (pre : Store) (w : Feature) (rest : Store)
    (hid : w.id ∉ pre.map Feature.id) :
    getFeature (pre ++ w :: rest) w.id = some w := by
  unfold getFeature
  rw [find?_append_right _ pre _ (by
    intro f hf
    simp only [beq_eq_false_iff_ne, ne_eq]
    intro hcon
    exact hid (hcon ▸ List.mem_map_of_mem Feature.id hf))]
  exact List.find?_cons_of_pos rest (by simp)

/-- `findByOpenspecKey` at the first row carrying the key, when all
earlier rows of the change have smaller group numbers. -/
lemma findKey_at (pre : Store) (w : Feature) (rest : Store) (C : String)
    (g : Nat) (hw1 : w.openspec_change_id = C) (hw2 : w.openspec_task_group = g)
    (hpre : ∀ f ∈ pre, f.openspec_change_id = C → f.openspec_task_group < g)
    (hid : w.id ∉ pre.map Feature.id) :
    findByOpenspecKey (pre ++ w :: rest) C g = some w := by
  unfold findByOpenspecKey
  rw [find?_append_right _ pre _ (by
    intro f hf
    by_cases hc : f.openspec_change_id = C
    · have := hpre f hf hc
      simp only [Bool.and_eq_false_iff, beq_eq_false_iff_ne, ne_eq]
      right
      omega
    · simp only [Bool.and_eq_false_iff, beq_eq_false_iff_ne, ne_eq]
      left
      exact hc)]
  rw [List.find?_cons_of_pos rest (by simp [hw1, hw2])]
  exact getFeature_at pre w rest hid

/-- `update` with a surviving set clause maps the row transformer over
the store. -/
lemma update_snd_map (S : Store) (fid : String)
    (fields : List (String × FieldVal))
    (hne : (setsOf fields).isEmpty = false) :
    (update S fid fields).2 =
      S.map (fun f => if f.id = fid then (setsOf fields).foldl setField f else f) := by
  unfold update
  rw [if_neg (by simp [hne])]

/-- `update` on a store holding exactly one row with the target id
rewrites that row in place. -/
lemma update_at (pre : Store) (w : Feature) (rest : Store)
    (fields : List (String × FieldVal))
    (h1 : w.id ∉ pre.map Feature.id) (h2 : w.id ∉ rest.map Feature.id)
    (hne : (setsOf fields).isEmpty = false) :
    (update (pre ++ w :: rest) w.id fields).2 =
      pre ++ ((setsOf fields).foldl setField w) :: rest := by
  rw [update_snd_map _ _ _ hne, List.map_append, List.map_cons, if_pos rfl]
  congr 1
  · conv_rhs => rw [← List.map_id pre]
    apply List.map_congr_left
    intro f hf
    rw [if_neg (by
      intro hcon
      exact h1 (hcon ▸ List.mem_map_of_mem Feature.id hf))]
    rfl
  · congr 1
    conv_rhs => rw [← List.map_id rest]
    apply List.map_congr_left
    intro f hf
    rw [if_neg (by
      intro hcon
      exact h2 (hcon ▸ List.mem_map_of_mem Feature.id hf))]
    rfl

lemma setsOf_imported (C title : String) (reqs vsteps : List String) (g : Nat) :
    setsOf (importedFields C title reqs vsteps g) =
      importedFields C title reqs vsteps g := rfl

lemma setsOf_imported_ne (C title : String) (reqs vsteps : List String) (g : Nat) :
    (setsOf (importedFields C title reqs vsteps g)).isEmpty = false := rfl

lemma setsOf_deps (l : List String) :
    setsOf [("depends_on", FieldVal.vList l)] =
      [("depends_on", FieldVal.vList l)] := rfl

lemma setsOf_deps_ne (l : List String) :
    (setsOf [("depends_on", FieldVal.vList l)]).isEmpty = false := rfl

/-- Applying the imported content fields to a row already carrying those
exact values is the identity. -/
lemma applyImported_self (f : Feature) (C title : String)
    (reqs vsteps : List String) (g : Nat)
    (h1 : f.category = C) (h2 : f.description = title)
    (h3 : f.openspec_reference = "openspec/changes/" ++ C)
    (h4 : f.openspec_change_id = C) (h5 : f.openspec_task_group = g)
    (h6 : f.requirements = reqs) (h7 : f.verification_steps = vsteps)
    (h8 : f.notes = "Imported from OpenSpec change: " ++ C) :
    (importedFields C title reqs vsteps g).foldl setField f = f := by
  cases f
  simp only at h1 h2 h3 h4 h5 h6 h7 h8
  subst h1 h2 h3 h4 h5 h6 h7 h8
  rfl

/-- Applying the imported content fields touches only the content fields:
id, status, passes, depends_on and the agent/compliance columns are
unchanged, and the upsert key is written back. -/
lemma applyImported_frame (f : Feature) (C title : String)
    (reqs vsteps : List String) (g : Nat) :
    ((importedFields C title reqs vsteps g).foldl setField f).id = f.id ∧
    ((importedFields C title reqs vsteps g).foldl setField f).status = f.status ∧
    ((importedFields C title reqs vsteps g).foldl setField f).passes = f.passes ∧
    ((importedFields C title reqs vsteps g).foldl setField f).depends_on = f.depends_on ∧
    ((importedFields C title reqs vsteps g).foldl setField f).openspec_change_id = C ∧
    ((importedFields C title reqs vsteps g).foldl setField f).openspec_task_group = g ∧
    ((importedFields C title reqs vsteps g).foldl setField f).assigned_to = f.assigned_to ∧
    ((importedFields C title reqs vsteps g).foldl setField f).reviewed_by = f.reviewed_by ∧
    ((importedFields C title reqs vsteps g).foldl setField f).tested_by = f.tested_by ∧
    ((importedFields C title reqs vsteps g).foldl setField f).architecture_compliance
      = f.architecture_compliance := by
  cases f
  exact ⟨rfl, rfl, rfl, rfl, rfl, rfl, rfl, rfl, rfl, rfl⟩

lemma upsertGroups_cons_none (C : String) (reqs scens : List String)
    (store : Store) (g : Nat) (tg : TaskGroup) (rest : List TaskGroup)
    (h : findByOpenspecKey store C g = none) :
    upsertGroups C reqs scens store g (tg :: rest) =
      upsertGroups C reqs scens
        (store ++ [mkImported (nextId store) C tg.title (reqsFor reqs tg)
          (vstepsFor scens tg) g]) (g + 1) rest := by
  conv_lhs => rw [upsertGroups]
  rw [h]

lemma upsertGroups_cons_some (C : String) (reqs scens : List String)
    (store : Store) (g : Nat) (tg : TaskGroup) (rest : List TaskGroup)
    (e : Feature) (h : findByOpenspecKey store C g = some e) :
    upsertGroups C reqs scens store g (tg :: rest) =
      upsertGroups C reqs scens
        (update store e.id
          (importedFields C tg.title (reqsFor reqs tg)
            (vstepsFor scens tg) g)).2 (g + 1) rest := by
  conv_lhs => rw [upsertGroups]
  rw [h]

/-- On a store with canonical three-digit ids and no feature of change `C`
at group `g` or beyond, the upsert loop appends one freshly numbered
feature per task group. -/
lemma upsert_clean (C : String) (reqs scens : List String) :
    ∀ (tgs : List TaskGroup) (store : Store) (ns : List Nat) (g : Nat),
      store.map Feature.id = ns.map featN →
      (∀ n ∈ ns, n ≤ 999) →
      maxL ns + tgs.length ≤ 999 →
      (∀ f ∈ store, f.openspec_change_id = C → f.openspec_task_group < g) →
      upsertGroups C reqs scens store g tgs =
        store ++ createdFeats C reqs scens g (maxL ns) tgs := by
  intro tgs
  induction tgs with
  | nil =>
    intro store ns g _ _ _ _
    simp [upsertGroups, createdFeats]
  | cons tg rest ih =>
    intro store ns g hmap hb hroom hclean
    have hfind : findByOpenspecKey store C g = none := by
      unfold findByOpenspecKey
      rw [List.find?_eq_none.mpr (by
        intro f hf
        by_cases hc : f.openspec_change_id = C
        · have := hclean f hf hc
          simp only [Bool.and_eq_true, beq_iff_eq, not_and]
          intro _
          omega
        · simp only [Bool.and_eq_true, beq_iff_eq, not_and]
          intro hcon
          exact absurd hcon hc)]
    rw [upsertGroups_cons_none C reqs scens store g tg rest hfind]
    have hnext : nextId store = featN (maxL ns + 1) := nextId_featN store ns hmap hb
    rw [hnext]
    have hlen : rest.length + 1 = (tg :: rest).length := rfl
    have h1 : maxL ns + 1 ≤ 999 := by
      have := hroom
      rw [← hlen] at this
      omega
    have hmax : maxL (ns ++ [maxL ns + 1]) = maxL ns + 1 := by
      rw [maxL_append_one]
      exact Nat.max_eq_right (by omega)
    have := ih
      (store ++ [mkImported (featN (maxL ns + 1)) C tg.title (reqsFor reqs tg)
        (vstepsFor scens tg) g])
      (ns ++ [maxL ns + 1]) (g + 1)
      (by rw [List.map_append, List.map_append, hmap, List.map_cons]; rfl)
      (by
        intro n hn
        rcases List.mem_append.mp hn with h | h
        · exact hb n h
        · simp only [List.mem_singleton] at h
          omega)
      (by
        rw [hmax]
        rw [← hlen] at hroom
        omega)
      (by
        intro f hf hc
        rcases List.mem_append.mp hf with h | h
        · have := hclean f h hc
          omega
        · simp only [List.mem_singleton] at h
          subst h
          show g < g + 1
          omega)
    rw [this, hmax]
    show store ++ [_] ++ createdFeats C reqs scens (g + 1) (maxL ns + 1) rest =
      store ++ createdFeats C reqs scens g (maxL ns) (tg :: rest)
    rw [createdFeats, List.append_assoc]
    rfl

/-- The id-collection pass over the freshly created features returns
exactly their ids, in group order. -/
lemma collect_created (C : String) (reqs scens : List String) :
    ∀ (tgs : List TaskGroup) (pre : Store) (g m : Nat),
      ((pre ++ createdFeats C reqs scens g m tgs).map Feature.id).Nodup →
      (∀ f ∈ pre, f.openspec_change_id = C → f.openspec_task_group < g) →
      collectFrom (pre ++ createdFeats C reqs scens g m tgs) C g tgs.length =
        idsFrom m tgs.length := by
  intro tgs
  induction tgs with
  | nil => intro pre g m _ _; rfl
  | cons tg rest ih =>
    intro pre g m hnodup hpre
    set c1 : Feature := mkImported (featN (m + 1)) C tg.title (reqsFor reqs tg)
      (vstepsFor scens tg) g with hc1
    have hmid : createdFeats C reqs scens g m (tg :: rest) =
        c1 :: createdFeats C reqs scens (g + 1) (m + 1) rest := rfl
    rw [hmid] at hnodup ⊢
    have hmaps : (pre ++ c1 :: createdFeats C reqs scens (g + 1) (m + 1) rest).map
        Feature.id = pre.map Feature.id ++ c1.id ::
          (createdFeats C reqs scens (g + 1) (m + 1) rest).map Feature.id := by
      simp
    rw [hmaps] at hnodup
    have hid1 : c1.id ∉ pre.map Feature.id := (nodup_middle_not_mem hnodup).1
    have hkey : findByOpenspecKey
        (pre ++ c1 :: createdFeats C reqs scens (g + 1) (m + 1) rest) C g = some c1 :=
      findKey_at pre c1 _ C g rfl rfl hpre hid1
    show collectFrom _ C g (rest.length + 1) = idsFrom m (rest.length + 1)
    unfold collectFrom
    rw [List.range_succ_eq_map, List.filterMap_cons_some (by
      show (findByOpenspecKey _ C (g + 0)).map Feature.id = some c1.id
      rw [show g + 0 = g from rfl, hkey]; rfl)]
    rw [List.filterMap_map]
    have hfun : ((fun i => (findByOpenspecKey
          (pre ++ c1 :: createdFeats C reqs scens (g + 1) (m + 1) rest) C
          (g + i)).map Feature.id) ∘ Nat.succ) =
        (fun i => (findByOpenspecKey
          ((pre ++ [c1]) ++ createdFeats C reqs scens (g + 1) (m + 1) rest) C
          ((g + 1) + i)).map Feature.id) := by
      funext i
      show (findByOpenspecKey _ C (g + Nat.succ i)).map Feature.id =
        (findByOpenspecKey _ C ((g + 1) + i)).map Feature.id
      rw [show g + Nat.succ i = g + 1 + i by omega, List.append_assoc,
        List.singleton_append]
    rw [hfun]
    have hih := ih (pre ++ [c1]) (g + 1) (m + 1)
      (by
        rw [List.append_assoc, List.singleton_append, hmaps]
        exact hnodup)
      (by
        intro f hf hc
        rcases List.mem_append.mp hf with h | h
        · have := hpre f h hc
          omega
        · simp only [List.mem_singleton] at h
          subst h
          show g < g + 1
          omega)
    unfold collectFrom at hih
    rw [hih]
    show c1.id :: idsFrom (m + 1) rest.length = idsFrom m (rest.length + 1)
    rfl

/-- The id-collection pass over the wired features returns exactly their
ids, in group order. -/
lemma collect_wired (C : String) (reqs scens : List String) :
    ∀ (tgs : List TaskGroup) (pre : Store) (g m : Nat) (p : Option String),
      ((pre ++ wiredFeats C reqs scens g m p tgs).map Feature.id).Nodup →
      (∀ f ∈ pre, f.openspec_change_id = C → f.openspec_task_group < g) →
      collectFrom (pre ++ wiredFeats C reqs scens g m p tgs) C g tgs.length =
        idsFrom m tgs.length := by
  intro tgs
  induction tgs with
  | nil => intro pre g m p _ _; rfl
  | cons tg rest ih =>
    intro pre g m p hnodup hpre
    set w1 : Feature := { mkImported (featN (m + 1)) C tg.title (reqsFor reqs tg)
      (vstepsFor scens tg) g with depends_on := prevList p } with hw1
    have hmid : wiredFeats C reqs scens g m p (tg :: rest) =
        w1 :: wiredFeats C reqs scens (g + 1) (m + 1) (some (featN (m + 1))) rest := rfl
    rw [hmid] at hnodup ⊢
    have hmaps : (pre ++ w1 :: wiredFeats C reqs scens (g + 1) (m + 1)
        (some (featN (m + 1))) rest).map Feature.id =
        pre.map Feature.id ++ w1.id ::
          (wiredFeats C reqs scens (g + 1) (m + 1) (some (featN (m + 1))) rest).map
            Feature.id := by
      simp
    rw [hmaps] at hnodup
    have hid1 : w1.id ∉ pre.map Feature.id := (nodup_middle_not_mem hnodup).1
    have hkey : findByOpenspecKey
        (pre ++ w1 :: wiredFeats C reqs scens (g + 1) (m + 1)
          (some (featN (m + 1))) rest) C g = some w1 :=
      findKey_at pre w1 _ C g rfl rfl hpre hid1
    show collectFrom _ C g (rest.length + 1) = idsFrom m (rest.length + 1)
    unfold collectFrom
    rw [List.range_succ_eq_map, List.filterMap_cons_some (by
      show (findByOpenspecKey _ C (g + 0)).map Feature.id = some w1.id
      rw [show g + 0 = g from rfl, hkey]; rfl)]
    rw [List.filterMap_map]
    have hfun : ((fun i => (findByOpenspecKey
          (pre ++ w1 :: wiredFeats C reqs scens (g + 1) (m + 1)
            (some (featN (m + 1))) rest) C (g + i)).map Feature.id) ∘ Nat.succ) =
        (fun i => (findByOpenspecKey
          ((pre ++ [w1]) ++ wiredFeats C reqs scens (g + 1) (m + 1)
            (some (featN (m + 1))) rest) C ((g + 1) + i)).map Feature.id) := by
      funext i
      show (findByOpenspecKey _ C (g + Nat.succ i)).map Feature.id =
        (findByOpenspecKey _ C ((g + 1) + i)).map Feature.id
      rw [show g + Nat.succ i = g + 1 + i by omega, List.append_assoc,
        List.singleton_append]
    rw [hfun]
    have hih := ih (pre ++ [w1]) (g + 1) (m + 1) (some (featN (m + 1)))
      (by
        rw [List.append_assoc, List.singleton_append, hmaps]
        exact hnodup)
      (by
        intro f hf hc
        rcases List.mem_append.mp hf with h | h
        · have := hpre f h hc
          omega
        · simp only [List.mem_singleton] at h
          subst h
          show g < g + 1
          omega)
    unfold collectFrom at hih
    rw [hih]
    show w1.id :: idsFrom (m + 1) rest.length = idsFrom m (rest.length + 1)
    rfl

/-- Running the wiring loop over a predecessor feature `w` followed by the
freshly created features chains each created feature's `depends_on` to its
predecessor. -/
lemma wire_chain (C : String) (reqs scens : List String) :
    ∀ (tgs : List TaskGroup) (pre : Store) (w : Feature) (g m : Nat),
      ((pre ++ w :: createdFeats C reqs scens g m tgs).map Feature.id).Nodup →
      wireDeps (pre ++ w :: createdFeats C reqs scens g m tgs)
          (w.id :: (createdFeats C reqs scens g m tgs).map Feature.id) =
        pre ++ w :: wiredFeats C reqs scens g m (some w.id) tgs := by
  intro tgs
  induction tgs with
  | nil =>
    intro pre w g m _
    rfl
  | cons tg rest ih =>
    intro pre w g m hnodup
    set c1 : Feature := mkImported (featN (m + 1)) C tg.title (reqsFor reqs tg)
      (vstepsFor scens tg) g with hc1
    have hmid : createdFeats C reqs scens g m (tg :: rest) =
        c1 :: createdFeats C reqs scens (g + 1) (m + 1) rest := rfl
    rw [hmid] at hnodup ⊢
    set crest : Store := createdFeats C reqs scens (g + 1) (m + 1) rest with hcrest
    have hmaps : (pre ++ w :: c1 :: crest).map Feature.id =
        (pre ++ [w]).map Feature.id ++ c1.id :: crest.map Feature.id := by
      simp
    have hnodup2 : ((pre ++ [w]).map Feature.id ++ c1.id :: crest.map Feature.id).Nodup := by
      rw [← hmaps]
      exact hnodup
    have hc1pre : c1.id ∉ (pre ++ [w]).map Feature.id := (nodup_middle_not_mem hnodup2).1
    have hc1rest : c1.id ∉ crest.map Feature.id := (nodup_middle_not_mem hnodup2).2
    have hget : getFeature (pre ++ w :: c1 :: crest) c1.id = some c1 := by
      have := getFeature_at (pre ++ [w]) c1 crest hc1pre
      rw [List.append_assoc, List.singleton_append] at this
      exact this
    show wireDeps _ (w.id :: c1.id :: crest.map Feature.id) = _
    rw [wireDeps]
    have hstep : wireStep (pre ++ w :: c1 :: crest) w.id c1.id =
        pre ++ w :: ({ c1 with depends_on := [w.id] } : Feature) :: crest := by
      unfold wireStep
      rw [hget]
      show (if c1.depends_on.contains w.id = true then pre ++ w :: c1 :: crest
        else (update (pre ++ w :: c1 :: crest) c1.id
          [("depends_on", FieldVal.vList (c1.depends_on ++ [w.id]))]).2) = _
      rw [if_neg (by
        show ¬ (List.contains [] w.id = true)
        simp)]
      have hupd := update_at (pre ++ [w]) c1 crest
        [("depends_on", FieldVal.vList (c1.depends_on ++ [w.id]))]
        hc1pre hc1rest (setsOf_deps_ne _)
      rw [List.append_assoc, List.singleton_append] at hupd
      have hfold : List.foldl setField c1
          (setsOf [("depends_on", FieldVal.vList (c1.depends_on ++ [w.id]))]) =
          { c1 with depends_on := c1.depends_on ++ [w.id] } := rfl
      have hdeps : c1.depends_on ++ [w.id] = [w.id] := by
        rw [hc1]
        rfl
      rw [hupd, hfold, hdeps, List.append_assoc]
      rfl
    rw [hstep]
    have hnodup3 : (((pre ++ [w]) ++
        ({ c1 with depends_on := [w.id] } : Feature) :: crest).map Feature.id).Nodup := by
      rw [List.append_assoc, List.singleton_append]
      show ((pre ++ w :: ({ c1 with depends_on := [w.id] } : Feature) :: crest).map
        Feature.id).Nodup
      have : (pre ++ w :: ({ c1 with depends_on := [w.id] } : Feature) :: crest).map
          Feature.id = (pre ++ w :: c1 :: crest).map Feature.id := by
        simp
      rw [this]
      exact hnodup
    have hih := ih (pre ++ [w]) ({ c1 with depends_on := [w.id] } : Feature) (g + 1) (m + 1)
      (by
        rw [hcrest] at hnodup3
        exact hnodup3)
    rw [List.append_assoc, List.singleton_append] at hih
    show wireDeps (pre ++ w :: ({ c1 with depends_on := [w.id] } : Feature) :: crest)
      (({ c1 with depends_on := [w.id] } : Feature).id :: crest.map Feature.id) = _
    rw [hcrest]
    rw [hih, List.append_assoc]
    rfl

/-- Canonical store ids extended with the freshly created ids stay
duplicate-free. -/
lemma clean_ids_nodup (store : Store) (ns : List Nat) (k : Nat)
    (hmap : store.map Feature.id = ns.map featN)
    (hnd : ns.Nodup) (hb : ∀ n ∈ ns, n ≤ 999)
    (hroom : maxL ns + k ≤ 999) :
    (store.map Feature.id ++ idsFrom (maxL ns) k).Nodup := by
  rw [hmap]
  refine List.nodup_append.mpr ⟨?_, idsFrom_nodup k (maxL ns) hroom, ?_⟩
  · exact hnd.map_on (by
      intro x hx y hy hxy
      exact featN_inj x y (hb x hx) (hb y hy) hxy)
  · intro a ha1 ha2
    rcases List.mem_map.mp ha1 with ⟨n, hn, rfl⟩
    rcases (mem_idsFrom _ _ _).mp ha2 with ⟨i, hi, heq⟩
    have hn999 : n ≤ 999 := hb n hn
    have := featN_inj n (maxL ns + i + 1) hn999 (by omega) heq
    have hle := le_maxL ns n hn
    omega

/-- Wiring the freshly created features along their collected ids chains
their depends_on. -/
lemma wire_created (C : String) (reqs scens : List String)
    (store : Store) (M : Nat) (tgs : List TaskGroup)
    (hnodup : ((store ++ createdFeats C reqs scens 1 M tgs).map Feature.id).Nodup) :
    wireDeps (store ++ createdFeats C reqs scens 1 M tgs) (idsFrom M tgs.length) =
      store ++ wiredFeats C reqs scens 1 M none tgs := by
  cases tgs with
  | nil => simp [wireDeps, createdFeats, wiredFeats, idsFrom]
  | cons tg rest =>
    have hids : idsFrom (M + 1) rest.length =
        (createdFeats C reqs scens 2 (M + 1) rest).map Feature.id :=
      (createdFeats_map_id C reqs scens rest 2 (M + 1)).symm
    show wireDeps
        (store ++ mkImported (featN (M + 1)) C tg.title (reqsFor reqs tg)
          (vstepsFor scens tg) 1 ::
          createdFeats C reqs scens 2 (M + 1) rest)
        ((mkImported (featN (M + 1)) C tg.title (reqsFor reqs tg)
          (vstepsFor scens tg) 1).id ::
          idsFrom (M + 1) rest.length) = _
    rw [hids]
    rw [wire_chain C reqs scens rest store
      (mkImported (featN (M + 1)) C tg.title (reqsFor reqs tg)
        (vstepsFor scens tg) 1) 2 (M + 1) hnodup]
    rfl

/-- First import of a change into a clean store with canonical ids: the
result is the old store followed by the wired fresh features. -/
lemma importChange_clean (store : Store) (C tasks specs : String) (ns : List Nat)
    (hmap : store.map Feature.id = ns.map featN)
    (hnd : ns.Nodup)
    (hb : ∀ n ∈ ns, n ≤ 999)
    (hroom : maxL ns + (effectiveGroups C tasks).length ≤ 999)
    (hclean : ∀ f ∈ store, f.openspec_change_id ≠ C) :
    importChange store C tasks specs =
      store ++ wiredFeats C (specRequirements specs) (specScenarios specs)
        1 (maxL ns) none (effectiveGroups C tasks) := by
  set reqs := specRequirements specs with hreqs
  set scens := specScenarios specs with hscens
  set tgs := effectiveGroups C tasks with htgs
  have hclean1 : ∀ f ∈ store, f.openspec_change_id = C →
      f.openspec_task_group < 1 := by
    intro f hf hc
    exact absurd hc (hclean f hf)
  have hup : upsertGroups C reqs scens store 1 tgs =
      store ++ createdFeats C reqs scens 1 (maxL ns) tgs :=
    upsert_clean C reqs scens tgs store ns 1 hmap hb hroom hclean1
  have hnodupS1 : ((store ++ createdFeats C reqs scens 1 (maxL ns) tgs).map
      Feature.id).Nodup := by
    rw [List.map_append, createdFeats_map_id]
    exact clean_ids_nodup store ns tgs.length hmap hnd hb hroom
  have hcoll : collectIds (store ++ createdFeats C reqs scens 1 (maxL ns) tgs)
      C tgs.length = idsFrom (maxL ns) tgs.length := by
    rw [collectIds_eq_from]
    exact collect_created C reqs scens tgs store 1 (maxL ns) hnodupS1 hclean1
  show wireDeps (upsertGroups C reqs scens store 1 tgs)
      (collectIds (upsertGroups C reqs scens store 1 tgs) C tgs.length) = _
  rw [hup, hcoll]
  exact wire_created C reqs scens store (maxL ns) tgs hnodupS1

/-- A second upsert over an already imported (and wired) change rewrites
every existing feature with its own values: the store is unchanged. -/
lemma reupsert_noop (C : String) (reqs scens : List String) :
    ∀ (tgs : List TaskGroup) (pre : Store) (g m : Nat) (p : Option String),
      ((pre ++ wiredFeats C reqs scens g m p tgs).map Feature.id).Nodup →
      (∀ f ∈ pre, f.openspec_change_id = C → f.openspec_task_group < g) →
      upsertGroups C reqs scens (pre ++ wiredFeats C reqs scens g m p tgs) g tgs =
        pre ++ wiredFeats C reqs scens g m p tgs := by
  intro tgs
  induction tgs with
  | nil =>
    intro pre g m p _ _
    rfl
  | cons tg rest ih =>
    intro pre g m p hnodup hpre
    set w1 : Feature := { mkImported (featN (m + 1)) C tg.title (reqsFor reqs tg)
      (vstepsFor scens tg) g with depends_on := prevList p } with hw1
    have hmid : wiredFeats C reqs scens g m p (tg :: rest) =
        w1 :: wiredFeats C reqs scens (g + 1) (m + 1) (some (featN (m + 1))) rest := rfl
    rw [hmid] at hnodup ⊢
    have hmaps : (pre ++ w1 :: wiredFeats C reqs scens (g + 1) (m + 1)
        (some (featN (m + 1))) rest).map Feature.id =
        pre.map Feature.id ++ w1.id :: (wiredFeats C reqs scens (g + 1) (m + 1)
          (some (featN (m + 1))) rest).map Feature.id := by
      simp
    have hnodup2 : (pre.map Feature.id ++ w1.id ::
        (wiredFeats C reqs scens (g + 1) (m + 1)
          (some (featN (m + 1))) rest).map Feature.id).Nodup := by
      rw [← hmaps]
      exact hnodup
    have hid1 : w1.id ∉ pre.map Feature.id := (nodup_middle_not_mem hnodup2).1
    have hid2 : w1.id ∉ (wiredFeats C reqs scens (g + 1) (m + 1)
        (some (featN (m + 1))) rest).map Feature.id := (nodup_middle_not_mem hnodup2).2
    have hkey : findByOpenspecKey (pre ++ w1 ::
        wiredFeats C reqs scens (g + 1) (m + 1) (some (featN (m + 1))) rest) C g =
        some w1 :=
      findKey_at pre w1 _ C g rfl rfl hpre hid1
    rw [upsertGroups_cons_some C reqs scens _ g tg rest w1 hkey]
    have hupd := update_at pre w1
      (wiredFeats C reqs scens (g + 1) (m + 1) (some (featN (m + 1))) rest)
      (importedFields C tg.title (reqsFor reqs tg) (vstepsFor scens tg) g)
      hid1 hid2 (setsOf_imported_ne _ _ _ _ _)
    rw [setsOf_imported] at hupd
    rw [applyImported_self w1 C tg.title (reqsFor reqs tg) (vstepsFor scens tg) g
      rfl rfl rfl rfl rfl rfl rfl rfl] at hupd
    rw [hupd]
    have hpp : (pre ++ [w1]) ++ wiredFeats C reqs scens (g + 1) (m + 1)
        (some (featN (m + 1))) rest =
        pre ++ w1 :: wiredFeats C reqs scens (g + 1) (m + 1)
          (some (featN (m + 1))) rest := by
      simp
    have hih := ih (pre ++ [w1]) (g + 1) (m + 1) (some (featN (m + 1)))
      (by
        rw [hpp]
        exact hnodup)
      (by
        intro f hf hc
        rcases List.mem_append.mp hf with h | h
        · have := hpre f h hc
          omega
        · simp only [List.mem_singleton] at h
          subst h
          show g < g + 1
          omega)
    rw [hpp] at hih
    exact hih

/-- The wiring loop is a no-op when every consecutive pair of ids is
already wired: the successor feature exists and already lists its
predecessor in depends_on. -/
lemma wireDeps_noop :
    ∀ (ids : List String) (S : Store),
      List.Chain' (fun a b => ∃ f, getFeature S b = some f ∧
        f.depends_on.contains a = true) ids →
      wireDeps S ids = S := by
  intro ids
  induction ids with
  | nil => intro S _; rfl
  | cons a tail ih =>
    intro S hchain
    cases tail with
    | nil => rfl
    | cons b rest =>
      rcases List.chain'_cons.mp hchain with ⟨⟨f, hget, hcont⟩, htail⟩
      show wireDeps (wireStep S a b) (b :: rest) = S
      have hstep : wireStep S a b = S := by
        unfold wireStep
        rw [hget]
        show (if f.depends_on.contains a = true then S
          else (update S b [("depends_on", FieldVal.vList (f.depends_on ++ [a]))]).2) = S
        rw [if_pos hcont]
      rw [hstep]
      exact ih S htail

/-- In a store ending with the wired features, every consecutive pair of
fresh ids is already wired. -/
lemma wired_chain (C : String) (reqs scens : List String) :
    ∀ (tgs : List TaskGroup) (S pre : Store) (g m : Nat) (p : Option String),
      S = pre ++ wiredFeats C reqs scens g m p tgs →
      (S.map Feature.id).Nodup →
      List.Chain' (fun a b => ∃ f, getFeature S b = some f ∧
        f.depends_on.contains a = true) (idsFrom m tgs.length) := by
  intro tgs
  induction tgs with
  | nil =>
    intro S pre g m p _ _
    exact List.chain'_nil
  | cons tg rest ih =>
    intro S pre g m p hS hnodup
    set w1 : Feature := { mkImported (featN (m + 1)) C tg.title (reqsFor reqs tg)
      (vstepsFor scens tg) g with depends_on := prevList p } with hw1
    have hmid : wiredFeats C reqs scens g m p (tg :: rest) =
        w1 :: wiredFeats C reqs scens (g + 1) (m + 1) (some (featN (m + 1))) rest := rfl
    rw [hmid] at hS
    have hS2 : S = (pre ++ [w1]) ++
        wiredFeats C reqs scens (g + 1) (m + 1) (some (featN (m + 1))) rest := by
      rw [hS]
      simp
    have hih := ih S (pre ++ [w1]) (g + 1) (m + 1) (some (featN (m + 1))) hS2 hnodup
    show List.Chain' _ (idsFrom m (rest.length + 1))
    rw [idsFrom]
    cases rest with
    | nil => simp [idsFrom]
    | cons tg2 rest2 =>
      set w2 : Feature := { mkImported (featN (m + 2)) C tg2.title (reqsFor reqs tg2)
        (vstepsFor scens tg2) (g + 1) with
          depends_on := prevList (some (featN (m + 1))) } with hw2
      have hmid2 : wiredFeats C reqs scens (g + 1) (m + 1)
          (some (featN (m + 1))) (tg2 :: rest2) =
          w2 :: wiredFeats C reqs scens (g + 1 + 1) (m + 1 + 1)
            (some (featN (m + 1 + 1))) rest2 := rfl
      have hids2 : idsFrom (m + 1) (tg2 :: rest2).length =
          featN (m + 1 + 1) :: idsFrom (m + 1 + 1) rest2.length := rfl
      rw [hids2] at hih
      show List.Chain' _ (featN (m + 1) :: featN (m + 1 + 1) ::
        idsFrom (m + 1 + 1) rest2.length)
      refine List.chain'_cons.mpr ⟨?_, hih⟩
      refine ⟨w2, ?_, ?_⟩
      · have hS3 : S = (pre ++ [w1]) ++ w2 ::
            wiredFeats C reqs scens (g + 1 + 1) (m + 1 + 1)
              (some (featN (m + 1 + 1))) rest2 := by
          rw [hS2, hmid2]
        have hmaps : S.map Feature.id = (pre ++ [w1]).map Feature.id ++ w2.id ::
            (wiredFeats C reqs scens (g + 1 + 1) (m + 1 + 1)
              (some (featN (m + 1 + 1))) rest2).map Feature.id := by
          rw [hS3]
          simp
        have hnodup2 := hnodup
        rw [hmaps] at hnodup2
        have hidw2 : w2.id ∉ (pre ++ [w1]).map Feature.id :=
          (nodup_middle_not_mem hnodup2).1
        have := getFeature_at (pre ++ [w1]) w2
          (wiredFeats C reqs scens (g + 1 + 1) (m + 1 + 1)
            (some (featN (m + 1 + 1))) rest2) hidw2
        rw [← hS3] at this
        show getFeature S (featN (m + 1 + 1)) = some w2
        have hid2 : w2.id = featN (m + 1 + 1) := rfl
        rw [← hid2]
        exact this
      · show List.contains (prevList (some (featN (m + 1)))) (featN (m + 1)) = true
        simp [prevList]

/-- Importing the same change twice into a clean store gives the same
state as importing it once. -/
lemma importChange_idem (store : Store) (C tasks specs : String) (ns : List Nat)
    (hmap : store.map Feature.id = ns.map featN)
    (hnd : ns.Nodup)
    (hb : ∀ n ∈ ns, n ≤ 999)
    (hroom : maxL ns + (effectiveGroups C tasks).length ≤ 999)
    (hclean : ∀ f ∈ store, f.openspec_change_id ≠ C) :
    importChange (importChange store C tasks specs) C tasks specs =
      importChange store C tasks specs := by
  have h1 := importChange_clean store C tasks specs ns hmap hnd hb hroom hclean
  rw [h1]
  have hclean1 : ∀ f ∈ store, f.openspec_change_id = C →
      f.openspec_task_group < 1 := by
    intro f hf hc
    exact absurd hc (hclean f hf)
  have hnodupS1 : ((store ++ wiredFeats C (specRequirements specs)
      (specScenarios specs) 1 (maxL ns) none (effectiveGroups C tasks)).map
      Feature.id).Nodup := by
    rw [List.map_append, wiredFeats_map_id]
    exact clean_ids_nodup store ns (effectiveGroups C tasks).length hmap hnd hb hroom
  have hup := reupsert_noop C (specRequirements specs) (specScenarios specs)
    (effectiveGroups C tasks) store 1 (maxL ns) none hnodupS1 hclean1
  have hcoll : collectIds (store ++ wiredFeats C (specRequirements specs)
      (specScenarios specs) 1 (maxL ns) none (effectiveGroups C tasks)) C
      (effectiveGroups C tasks).length =
      idsFrom (maxL ns) (effectiveGroups C tasks).length := by
    rw [collectIds_eq_from]
    exact collect_wired C (specRequirements specs) (specScenarios specs)
      (effectiveGroups C tasks) store 1 (maxL ns) none hnodupS1 hclean1
  have hchain := wired_chain C (specRequirements specs) (specScenarios specs)
    (effectiveGroups C tasks)
    (store ++ wiredFeats C (specRequirements specs) (specScenarios specs)
      1 (maxL ns) none (effectiveGroups C tasks))
    store 1 (maxL ns) none rfl hnodupS1
  show wireDeps
      (upsertGroups C (specRequirements specs) (specScenarios specs)
        (store ++ wiredFeats C (specRequirements specs) (specScenarios specs)
          1 (maxL ns) none (effectiveGroups C tasks)) 1 (effectiveGroups C tasks))
      (collectIds
        (upsertGroups C (specRequirements specs) (specScenarios specs)
          (store ++ wiredFeats C (specRequirements specs) (specScenarios specs)
            1 (maxL ns) none (effectiveGroups C tasks)) 1 (effectiveGroups C tasks))
        C (effectiveGroups C tasks).length) = _
  rw [hup, hcoll]
  exact wireDeps_noop (idsFrom (maxL ns) (effectiveGroups C tasks).length) _ hchain

lemma idsFrom_length : ∀ (k m : Nat), (idsFrom m k).length = k := by
  intro k
  induction k with
  | zero => intro m; rfl
  | succ k2 ih =>
    intro m
    rw [idsFrom, List.length_cons, ih (m + 1)]

lemma wiredFeats_length (C : String) (reqs scens : List String)
    (tgs : List TaskGroup) (g m : Nat) (p : Option String) :
    (wiredFeats C reqs scens g m p tgs).length = tgs.length := by
  have := congrArg List.length (wiredFeats_map_id C reqs scens tgs g m p)
  rw [List.length_map, idsFrom_length] at this
  exact this

/-- Field structure of every wired feature: change id, group range, the
canonical id, and the chained depends_on. -/
lemma wiredFeats_mem_structure (C : String) (reqs scens : List String) :
    ∀ (tgs : List TaskGroup) (g m : Nat) (p : Option String),
      ∀ f ∈ wiredFeats C reqs scens g m p tgs,
        f.openspec_change_id = C ∧
        g ≤ f.openspec_task_group ∧
        f.openspec_task_group < g + tgs.length ∧
        f.id = featN (m + (f.openspec_task_group - g) + 1) ∧
        f.depends_on = (if f.openspec_task_group = g then prevList p
          else [featN (m + (f.openspec_task_group - g))]) := by
  intro tgs
  induction tgs with
  | nil =>
    intro g m p f hf
    simp [wiredFeats] at hf
  | cons tg rest ih =>
    intro g m p f hf
    rw [show wiredFeats C reqs scens g m p (tg :: rest) =
      ({ mkImported (featN (m + 1)) C tg.title (reqsFor reqs tg)
        (vstepsFor scens tg) g with depends_on := prevList p } : Feature) ::
      wiredFeats C reqs scens (g + 1) (m + 1) (some (featN (m + 1))) rest
      from rfl] at hf
    rcases List.mem_cons.mp hf with rfl | htail
    · have hg : Feature.openspec_task_group
          { mkImported (featN (m + 1)) C tg.title (reqsFor reqs tg)
            (vstepsFor scens tg) g with depends_on := prevList p } = g := rfl
      refine ⟨rfl, ?_, ?_, ?_, ?_⟩
      · rw [hg]
      · rw [hg, List.length_cons]
        omega
      · rw [hg, Nat.sub_self]
        rfl
      · rw [hg, if_pos rfl]
    · obtain ⟨h1, h2, h3, h4, h5⟩ := ih (g + 1) (m + 1) (some (featN (m + 1))) f htail
      refine ⟨h1, by omega, by rw [List.length_cons]; omega, ?_, ?_⟩
      · rw [h4]
        congr 1
        omega
      · rw [h5]
        rw [if_neg (show ¬ (f.openspec_task_group = g) by omega)]
        by_cases hje : f.openspec_task_group = g + 1
        · rw [if_pos hje, hje]
          show [featN (m + 1)] = [featN (m + (g + 1 - g))]
          congr 2
          omega
        · rw [if_neg hje]
          congr 2
          omega

/-- Every group in the imported range is carried by some wired feature. -/
lemma wiredFeats_exists_group (C : String) (reqs scens : List String) :
    ∀ (tgs : List TaskGroup) (g m : Nat) (p : Option String) (j : Nat),
      g ≤ j → j < g + tgs.length →
      ∃ f ∈ wiredFeats C reqs scens g m p tgs, f.openspec_task_group = j := by
  intro tgs
  induction tgs with
  | nil =>
    intro g m p j h1 h2
    simp at h2
    omega
  | cons tg rest ih =>
    intro g m p j h1 h2
    rw [show wiredFeats C reqs scens g m p (tg :: rest) =
      ({ mkImported (featN (m + 1)) C tg.title (reqsFor reqs tg)
        (vstepsFor scens tg) g with depends_on := prevList p } : Feature) ::
      wiredFeats C reqs scens (g + 1) (m + 1) (some (featN (m + 1))) rest
      from rfl]
    by_cases hj : j = g
    · exact ⟨_, List.mem_cons_self _ _, hj.symm ▸ rfl⟩
    · rw [List.length_cons] at h2
      obtain ⟨f, hfmem, hfg⟩ := ih (g + 1) (m + 1) (some (featN (m + 1))) j
        (by omega) (by omega)
      exact ⟨f, List.mem_cons_of_mem _ hfmem, hfg⟩

lemma wiredFeats_groups (C : String) (reqs scens : List String) :
    ∀ (tgs : List TaskGroup) (g m : Nat) (p : Option String),
      (wiredFeats C reqs scens g m p tgs).map Feature.openspec_task_group =
        List.range' g tgs.length := by
  intro tgs
  induction tgs with
  | nil => intro g m p; rfl
  | cons tg rest ih =>
    intro g m p
    rw [show wiredFeats C reqs scens g m p (tg :: rest) =
      ({ mkImported (featN (m + 1)) C tg.title (reqsFor reqs tg)
        (vstepsFor scens tg) g with depends_on := prevList p } : Feature) ::
      wiredFeats C reqs scens (g + 1) (m + 1) (some (featN (m + 1))) rest
      from rfl]
    rw [List.map_cons, ih (g + 1) (m + 1) (some (featN (m + 1))),
      List.length_cons, List.range'_succ g rest.length 1]
    rfl

lemma store_filter_change (store : Store) (C : String)
    (hclean : ∀ f ∈ store, f.openspec_change_id ≠ C) :
    store.filter (fun f => f.openspec_change_id == C) = [] := by
  rw [List.filter_eq_nil_iff]
  intro f hf
  simpa using hclean f hf

lemma wired_filter_change (C : String) (reqs scens : List String)
    (tgs : List TaskGroup) (g m : Nat) (p : Option String) :
    (wiredFeats C reqs scens g m p tgs).filter
      (fun f => f.openspec_change_id == C) = wiredFeats C reqs scens g m p tgs := by
  rw [List.filter_eq_self]
  intro f hf
  have := (wiredFeats_mem_structure C reqs scens tgs g m p f hf).1
  simp [this]

/-- C6: importing a change `C` whose artifacts parse into `k` task groups
into a clean store (canonical three-digit ids, no feature of change `C`)
creates exactly `k` features with `openspec_change_id = C`, carrying
`openspec_task_group` values 1, …, k; and importing `C` a second time in a
row creates no new features and returns the same store state (timestamps
are outside the model). -/
theorem importChange_count_groups_idempotent (store : Store)
    (C tasks specs : String) (ns : List Nat)
    (hmap : store.map Feature.id = ns.map featN)
    (hnd : ns.Nodup)
    (hb : ∀ n ∈ ns, n ≤ 999)
    (hroom : maxL ns + (effectiveGroups C tasks).length ≤ 999)
    (hclean : ∀ f ∈ store, f.openspec_change_id ≠ C) :
    ((importChange store C tasks specs).filter
        (fun f => f.openspec_change_id == C)).length =
      (effectiveGroups C tasks).length ∧
    ((importChange store C tasks specs).filter
        (fun f => f.openspec_change_id == C)).map Feature.openspec_task_group =
      List.range' 1 (effectiveGroups C tasks).length ∧
    importChange (importChange store C tasks specs) C tasks specs =
      importChange store C tasks specs := by
  have h1 := importChange_clean store C tasks specs ns hmap hnd hb hroom hclean
  have hfilter : (importChange store C tasks specs).filter
      (fun f => f.openspec_change_id == C) =
      wiredFeats C (specRequirements specs) (specScenarios specs) 1 (maxL ns)
        none (effectiveGroups C tasks) := by
    rw [h1, List.filter_append, store_filter_change store C hclean,
      wired_filter_change, List.nil_append]
  refine ⟨?_, ?_, importChange_idem store C tasks specs ns hmap hnd hb hroom hclean⟩
  · rw [hfilter, wiredFeats_length]
  · rw [hfilter, wiredFeats_groups]

/-- C6 witness: importing "add-auth" with two task groups into an empty
store creates FEAT-001 and FEAT-002 with groups 1 and 2, and a second run
of the import returns the identical store. -/
theorem importChange_count_groups_idempotent_witness :
    ((importChange [] "add-auth" "1. One\n2. Two" "").filter
        (fun f => f.openspec_change_id == "add-auth")).length =
      (effectiveGroups "add-auth" "1. One\n2. Two").length ∧
    ((importChange [] "add-auth" "1. One\n2. Two" "").filter
        (fun f => f.openspec_change_id == "add-auth")).map
        Feature.openspec_task_group =
      List.range' 1 (effectiveGroups "add-auth" "1. One\n2. Two").length ∧
    importChange (importChange [] "add-auth" "1. One\n2. Two" "") "add-auth"
        "1. One\n2. Two" "" =
      importChange [] "add-auth" "1. One\n2. Two" "" :=
  importChange_count_groups_idempotent [] "add-auth" "1. One\n2. Two" "" []
    rfl List.nodup_nil (by intro n hn; simp at hn) (by decide)
    (by intro f hf; simp at hf)

/-- C8: after importing change `C` into a clean store, every imported
feature with `openspec_task_group = g ≥ 2` lists the id of the group
`g − 1` feature of the same change in its `depends_on` exactly once (the
id is added only when not already present); a second import leaves every
store row — including every `depends_on` list — unchanged, so it neither
duplicates the entry nor removes others. -/
theorem importChange_sequential_wiring (store : Store)
    (C tasks specs : String) (ns : List Nat)
    (hmap : store.map Feature.id = ns.map featN)
    (hnd : ns.Nodup)
    (hb : ∀ n ∈ ns, n ≤ 999)
    (hroom : maxL ns + (effectiveGroups C tasks).length ≤ 999)
    (hclean : ∀ f ∈ store, f.openspec_change_id ≠ C) :
    (∀ f ∈ importChange store C tasks specs,
      f.openspec_change_id = C → 2 ≤ f.openspec_task_group →
      ∃ fprev ∈ importChange store C tasks specs,
        fprev.openspec_change_id = C ∧
        fprev.openspec_task_group = f.openspec_task_group - 1 ∧
        f.depends_on.count fprev.id = 1) ∧
    importChange (importChange store C tasks specs) C tasks specs =
      importChange store C tasks specs := by
  have h1 := importChange_clean store C tasks specs ns hmap hnd hb hroom hclean
  refine ⟨?_, importChange_idem store C tasks specs ns hmap hnd hb hroom hclean⟩
  intro f hf hC hg2
  rw [h1] at hf
  rcases List.mem_append.mp hf with hf0 | hfw
  · exact absurd hC (hclean f hf0)
  · obtain ⟨_, hge, hlt, _, hdeps⟩ := wiredFeats_mem_structure C
      (specRequirements specs) (specScenarios specs)
      (effectiveGroups C tasks) 1 (maxL ns) none f hfw
    rw [if_neg (show ¬ (f.openspec_task_group = 1) by omega)] at hdeps
    obtain ⟨fprev, hprevmem, hprevg⟩ := wiredFeats_exists_group C
      (specRequirements specs) (specScenarios specs)
      (effectiveGroups C tasks) 1 (maxL ns) none
      (f.openspec_task_group - 1) (by omega) (by omega)
    obtain ⟨hpC, hpge, _, hpid, _⟩ := wiredFeats_mem_structure C
      (specRequirements specs) (specScenarios specs)
      (effectiveGroups C tasks) 1 (maxL ns) none fprev hprevmem
    refine ⟨fprev, ?_, hpC, hprevg, ?_⟩
    · rw [h1]
      exact List.mem_append.mpr (Or.inr hprevmem)
    · rw [hdeps]
      have hpid2 : fprev.id = featN (maxL ns + (f.openspec_task_group - 1)) := by
        rw [hpid, hprevg]
        congr 1
        omega
      rw [hpid2]
      simp

/-- C8 witness: on the two-group import of "seq-change", the group-2
feature depends exactly once on the group-1 feature's id, and re-import
changes nothing. -/
theorem importChange_sequential_wiring_witness :
    (∀ f ∈ importChange [] "seq-change" "1. A\n2. B" "",
      f.openspec_change_id = "seq-change" → 2 ≤ f.openspec_task_group →
      ∃ fprev ∈ importChange [] "seq-change" "1. A\n2. B" "",
        fprev.openspec_change_id = "seq-change" ∧
        fprev.openspec_task_group = f.openspec_task_group - 1 ∧
        f.depends_on.count fprev.id = 1) ∧
    importChange (importChange [] "seq-change" "1. A\n2. B" "") "seq-change"
        "1. A\n2. B" "" =
      importChange [] "seq-change" "1. A\n2. B" "" :=
  importChange_sequential_wiring [] "seq-change" "1. A\n2. B" "" []
    rfl List.nodup_nil (by intro n hn; simp at hn) (by decide)
    (by intro f hf; simp at hf)

lemma keepRel_refl (f : Feature) : keepRel f f :=
  ⟨rfl, rfl, rfl, fun _ hd => hd, rfl, rfl, rfl, rfl, rfl, rfl⟩

lemma keepRel_trans {a b c : Feature} (h1 : keepRel a b) (h2 : keepRel b c) :
    keepRel a c := by
  obtain ⟨i1, s1, p1, d1, c1, g1, a1, r1, t1, ac1⟩ := h1
  obtain ⟨i2, s2, p2, d2, c2, g2, a2, r2, t2, ac2⟩ := h2
  exact ⟨i2.trans i1, s2.trans s1, p2.trans p1, fun d hd => d2 d (d1 d hd),
    c2.trans c1, g2.trans g1, a2.trans a1, r2.trans r1, t2.trans t1,
    ac2.trans ac1⟩

lemma forall₂_keep_refl (l : List Feature) : List.Forall₂ keepRel l l :=
  List.forall₂_same.mpr (fun f _ => keepRel_refl f)

lemma forall₂_map_self {R : Feature → Feature → Prop} (l : List Feature)
    (f : Feature → Feature) (h : ∀ a ∈ l, R a (f a)) :
    List.Forall₂ R l (l.map f) := by
  induction l with
  | nil => exact List.Forall₂.nil
  | cons a t ih =>
    exact List.Forall₂.cons (h a (by simp))
      (ih (fun x hx => h x (by simp [hx])))

lemma forall₂_keep_trans :
    ∀ {l1 l2 l3 : List Feature}, List.Forall₂ keepRel l1 l2 →
      List.Forall₂ keepRel l2 l3 → List.Forall₂ keepRel l1 l3 := by
  intro l1 l2 l3 h12
  induction h12 generalizing l3 with
  | nil =>
    intro h23
    cases h23
    exact List.Forall₂.nil
  | cons hab htail ih =>
    intro h23
    cases h23 with
    | cons hbc htail2 =>
      exact List.Forall₂.cons (keepRel_trans hab hbc) (ih htail2)

lemma forall₂_keep_map_id :
    ∀ {l1 l2 : List Feature}, List.Forall₂ keepRel l1 l2 →
      l2.map Feature.id = l1.map Feature.id := by
  intro l1 l2 h
  induction h with
  | nil => rfl
  | cons hab _ ih =>
    rw [List.map_cons, List.map_cons, ih, hab.1]

/-- `find?` transports along `Forall₂` when the relation determines the
predicate. -/
lemma find?_forall₂ {R : Feature → Feature → Prop} (p : Feature → Bool)
    (hp : ∀ a b, R a b → p b = p a) :
    ∀ {l1 l2 : List Feature}, List.Forall₂ R l1 l2 →
      (l1.find? p = none ∧ l2.find? p = none) ∨
      (∃ a b, l1.find? p = some a ∧ l2.find? p = some b ∧ R a b) := by
  intro l1 l2 h
  induction h with
  | nil => exact Or.inl ⟨rfl, rfl⟩
  | @cons a b t1 t2 hab htail ih =>
    by_cases hpa : p a = true
    · right
      exact ⟨a, b, List.find?_cons_of_pos _ hpa,
        List.find?_cons_of_pos _ (by rw [hp a b hab]; exact hpa), hab⟩
    · rw [List.find?_cons_of_neg _ (by simpa using hpa),
        List.find?_cons_of_neg _ (by rw [hp a b hab]; simpa using hpa)]
      exact ih

/-- With unique ids, the row-then-get composite of `findByOpenspecKey` is
just the key search. -/
lemma findByOpenspecKey_eq_find (S : Store)
    (hnd : (S.map Feature.id).Nodup) (C : String) (j : Nat) :
    findByOpenspecKey S C j =
      S.find? (fun f => f.openspec_change_id == C &&
        f.openspec_task_group == j) := by
  unfold findByOpenspecKey
  cases hfind : S.find? (fun f => f.openspec_change_id == C &&
      f.openspec_task_group == j) with
  | none => rfl
  | some e => exact getFeature_of_mem_nodup hnd (List.mem_of_find?_eq_some hfind)

/-- The upsert loop over existing keys only rewrites content fields:
every row keeps its id, status, passes, depends_on entries, upsert key and
agent columns, and the id column is untouched. -/
lemma upsert_frame (C : String) (reqs scens : List String) :
    ∀ (tgs : List TaskGroup) (S : Store) (g : Nat),
      (S.map Feature.id).Nodup →
      (∀ j, g ≤ j → j < g + tgs.length →
        (S.find? (fun f => f.openspec_change_id == C &&
          f.openspec_task_group == j)).isSome) →
      List.Forall₂ keepRel S (upsertGroups C reqs scens S g tgs) ∧
        (upsertGroups C reqs scens S g tgs).map Feature.id = S.map Feature.id := by
  intro tgs
  induction tgs with
  | nil =>
    intro S g _ _
    exact ⟨forall₂_keep_refl S, rfl⟩
  | cons tg rest ih =>
    intro S g hnd hall
    obtain ⟨e, he⟩ := Option.isSome_iff_exists.mp
      (hall g (Nat.le_refl g) (by simp only [List.length_cons]; omega))
    have hkey : findByOpenspecKey S C g = some e := by
      rw [findByOpenspecKey_eq_find S hnd, he]
    rw [upsertGroups_cons_some C reqs scens S g tg rest e hkey]
    have heS : e ∈ S := List.mem_of_find?_eq_some he
    have hekey : e.openspec_change_id = C ∧ e.openspec_task_group = g := by
      have := List.find?_some he
      simpa using this
    have hupd : (update S e.id
        (importedFields C tg.title (reqsFor reqs tg) (vstepsFor scens tg) g)).2 =
        S.map (fun f => if f.id = e.id then
          (setsOf (importedFields C tg.title (reqsFor reqs tg)
            (vstepsFor scens tg) g)).foldl setField f else f) :=
      update_snd_map S e.id _ (setsOf_imported_ne _ _ _ _ _)
    rw [hupd]
    have hrel : ∀ a ∈ S, keepRel a (if a.id = e.id then
        (setsOf (importedFields C tg.title (reqsFor reqs tg)
          (vstepsFor scens tg) g)).foldl setField a else a) := by
      intro a ha
      by_cases hid : a.id = e.id
      · rw [if_pos hid, setsOf_imported]
        have hae : a = e := unique_of_id_eq hnd ha heS hid
        obtain ⟨f1, f2, f3, f4, f5, f6, f7, f8, f9, f10⟩ :=
          applyImported_frame a C tg.title (reqsFor reqs tg) (vstepsFor scens tg) g
        exact ⟨f1, f2, f3, fun d hd => f4 ▸ hd, by rw [f5, hae, hekey.1],
          by rw [f6, hae, hekey.2], f7, f8, f9, f10⟩
      · rw [if_neg hid]
        exact keepRel_refl a
    have hF1 : List.Forall₂ keepRel S
        (S.map (fun f => if f.id = e.id then
          (setsOf (importedFields C tg.title (reqsFor reqs tg)
            (vstepsFor scens tg) g)).foldl setField f else f)) :=
      forall₂_map_self S _ hrel
    have hids1 : (S.map (fun f => if f.id = e.id then
        (setsOf (importedFields C tg.title (reqsFor reqs tg)
          (vstepsFor scens tg) g)).foldl setField f else f)).map Feature.id =
        S.map Feature.id := forall₂_keep_map_id hF1
    have hnd2 : ((S.map (fun f => if f.id = e.id then
        (setsOf (importedFields C tg.title (reqsFor reqs tg)
          (vstepsFor scens tg) g)).foldl setField f else f)).map Feature.id).Nodup := by
      rw [hids1]
      exact hnd
    have hall2 : ∀ j, g + 1 ≤ j → j < (g + 1) + rest.length →
        ((S.map (fun f => if f.id = e.id then
          (setsOf (importedFields C tg.title (reqsFor reqs tg)
            (vstepsFor scens tg) g)).foldl setField f else f)).find?
          (fun f => f.openspec_change_id == C &&
            f.openspec_task_group == j)).isSome := by
      intro j h1 h2
      have h0 := hall j (by omega) (by simp only [List.length_cons]; omega)
      rcases find?_forall₂
        (fun f => f.openspec_change_id == C && f.openspec_task_group == j)
        (by
          intro a b hab
          show (b.openspec_change_id == C && b.openspec_task_group == j) =
            (a.openspec_change_id == C && a.openspec_task_group == j)
          rw [hab.2.2.2.2.1, hab.2.2.2.2.2.1]) hF1 with ⟨hn1, _⟩ | ⟨a, b, _, hfb, _⟩
      · rw [hn1] at h0
        simp at h0
      · rw [hfb]
        rfl
    obtain ⟨ihF, ihids⟩ := ih
      (S.map (fun f => if f.id = e.id then
        (setsOf (importedFields C tg.title (reqsFor reqs tg)
          (vstepsFor scens tg) g)).foldl setField f else f)) (g + 1) hnd2 hall2
    exact ⟨forall₂_keep_trans hF1 ihF, by rw [ihids, hids1]⟩

/-- One wiring step only ever appends to a feature's depends_on. -/
lemma wireStep_frame (S : Store) (hnd : (S.map Feature.id).Nodup)
    (a b : String) :
    List.Forall₂ keepRel S (wireStep S a b) ∧
      (wireStep S a b).map Feature.id = S.map Feature.id := by
  unfold wireStep
  cases hget : getFeature S b with
  | none => exact ⟨forall₂_keep_refl S, rfl⟩
  | some f =>
    show List.Forall₂ keepRel S (if f.depends_on.contains a = true then S
        else (update S b [("depends_on", FieldVal.vList (f.depends_on ++ [a]))]).2) ∧
      (if f.depends_on.contains a = true then S
        else (update S b
          [("depends_on", FieldVal.vList (f.depends_on ++ [a]))]).2).map
        Feature.id = S.map Feature.id
    by_cases hc : f.depends_on.contains a = true
    · rw [if_pos hc]
      exact ⟨forall₂_keep_refl S, rfl⟩
    · rw [if_neg hc]
      have hupd : (update S b
          [("depends_on", FieldVal.vList (f.depends_on ++ [a]))]).2 =
          S.map (fun x => if x.id = b then
            (setsOf [("depends_on", FieldVal.vList (f.depends_on ++ [a]))]).foldl
              setField x else x) :=
        update_snd_map S b _ (setsOf_deps_ne _)
      rw [hupd]
      have hfS : f ∈ S := by
        unfold getFeature at hget
        exact List.mem_of_find?_eq_some hget
      have hfb : f.id = b := by
        unfold getFeature at hget
        have := List.find?_some hget
        simpa using this
      have hrel : ∀ x ∈ S, keepRel x (if x.id = b then
          (setsOf [("depends_on", FieldVal.vList (f.depends_on ++ [a]))]).foldl
            setField x else x) := by
        intro x hx
        by_cases hid : x.id = b
        · rw [if_pos hid]
          have hxf : x = f := unique_of_id_eq hnd hx hfS (by rw [hid, hfb])
          have hfold : (setsOf
              [("depends_on", FieldVal.vList (f.depends_on ++ [a]))]).foldl
              setField x = { x with depends_on := f.depends_on ++ [a] } := rfl
          rw [hfold]
          exact ⟨rfl, rfl, rfl,
            (by
              intro d hd
              show d ∈ f.depends_on ++ [a]
              rw [← hxf]
              exact List.mem_append.mpr (Or.inl hd)), rfl, rfl, rfl, rfl, rfl, rfl⟩
        · rw [if_neg hid]
          exact keepRel_refl x
      have hF1 := forall₂_map_self S _ hrel
      exact ⟨hF1, forall₂_keep_map_id hF1⟩

/-- The whole wiring loop only ever appends to depends_on lists. -/
lemma wireDeps_frame :
    ∀ (ids : List String) (S : Store),
      (S.map Feature.id).Nodup →
      List.Forall₂ keepRel S (wireDeps S ids) ∧
        (wireDeps S ids).map Feature.id = S.map Feature.id := by
  intro ids
  induction ids with
  | nil =>
    intro S _
    exact ⟨forall₂_keep_refl S, rfl⟩
  | cons a tail ih =>
    intro S hnd
    cases tail with
    | nil => exact ⟨forall₂_keep_refl S, rfl⟩
    | cons b rest =>
      obtain ⟨hS1, hids1⟩ := wireStep_frame S hnd a b
      have hnd2 : ((wireStep S a b).map Feature.id).Nodup := by
        rw [hids1]
        exact hnd
      obtain ⟨hS2, hids2⟩ := ih (wireStep S a b) hnd2
      exact ⟨forall₂_keep_trans hS1 hS2, by
        show (wireDeps (wireStep S a b) (b :: rest)).map Feature.id = _
        rw [hids2, hids1]⟩

/-- C7: when every task group of the change already has a feature under
the key (openspec_change_id, openspec_task_group), a re-import row-wise
touches only the content fields (category, description, requirements,
verification_steps, openspec_reference, notes): each feature keeps its id,
status, passes, every previously present depends_on entry, its upsert key
and its agent/compliance columns, and the stored id sequence is
unchanged. -/
theorem importChange_existing_frame (store : Store) (C tasks specs : String)
    (hnd : (store.map Feature.id).Nodup)
    (hall : ∀ j, 1 ≤ j → j ≤ (effectiveGroups C tasks).length →
      (store.find? (fun f => f.openspec_change_id == C &&
        f.openspec_task_group == j)).isSome) :
    List.Forall₂ keepRel store (importChange store C tasks specs) ∧
      (importChange store C tasks specs).map Feature.id =
        store.map Feature.id := by
  obtain ⟨hF1, hids1⟩ := upsert_frame C (specRequirements specs)
    (specScenarios specs) (effectiveGroups C tasks) store 1 hnd
    (by
      intro j h1 h2
      exact hall j h1 (by omega))
  have hnd1 : ((upsertGroups C (specRequirements specs) (specScenarios specs)
      store 1 (effectiveGroups C tasks)).map Feature.id).Nodup := by
    rw [hids1]
    exact hnd
  obtain ⟨hF2, hids2⟩ := wireDeps_frame
    (collectIds (upsertGroups C (specRequirements specs) (specScenarios specs)
      store 1 (effectiveGroups C tasks)) C (effectiveGroups C tasks).length)
    (upsertGroups C (specRequirements specs) (specScenarios specs)
      store 1 (effectiveGroups C tasks)) hnd1
  exact ⟨forall₂_keep_trans hF1 hF2, by
    show (wireDeps (upsertGroups C (specRequirements specs) (specScenarios specs)
        store 1 (effectiveGroups C tasks))
      (collectIds (upsertGroups C (specRequirements specs) (specScenarios specs)
        store 1 (effectiveGroups C tasks)) C
        (effectiveGroups C tasks).length)).map Feature.id = store.map Feature.id
    rw [hids2, hids1]⟩

/-- C7 witness: a store already carrying both groups of "add-auth", with a
manually set depends_on, a complete status and passes = true on group 1;
the re-import preserves all of it. -/
theorem importChange_existing_frame_witness :
    List.Forall₂ keepRel
      [{ id := "FEAT-001", status := "complete", passes := true,
         depends_on := ["FEAT-900"], openspec_change_id := "add-auth",
         openspec_task_group := 1 },
       { id := "FEAT-002", openspec_change_id := "add-auth",
         openspec_task_group := 2 }]
      (importChange
        [{ id := "FEAT-001", status := "complete", passes := true,
           depends_on := ["FEAT-900"], openspec_change_id := "add-auth",
           openspec_task_group := 1 },
         { id := "FEAT-002", openspec_change_id := "add-auth",
           openspec_task_group := 2 }] "add-auth" "1. One\n2. Two" "") ∧
      (importChange
        [{ id := "FEAT-001", status := "complete", passes := true,
           depends_on := ["FEAT-900"], openspec_change_id := "add-auth",
           openspec_task_group := 1 },
         { id := "FEAT-002", openspec_change_id := "add-auth",
           openspec_task_group := 2 }] "add-auth" "1. One\n2. Two" "").map
        Feature.id =
      (([{ id := "FEAT-001", status := "complete", passes := true,
           depends_on := ["FEAT-900"], openspec_change_id := "add-auth",
           openspec_task_group := 1 },
         { id := "FEAT-002", openspec_change_id := "add-auth",
           openspec_task_group := 2 }] : Store)).map Feature.id :=
  importChange_existing_frame
    [{ id := "FEAT-001", status := "complete", passes := true,
       depends_on := ["FEAT-900"], openspec_change_id := "add-auth",
       openspec_task_group := 1 },
     { id := "FEAT-002", openspec_change_id := "add-auth",
       openspec_task_group := 2 }] "add-auth" "1. One\n2. Two" ""
    (by decide)
    (by
      intro j h1 h2
      have hlen : (effectiveGroups "add-auth" "1. One\n2. Two").length = 2 := rfl
      rw [hlen] at h2
      interval_cases j
      · decide
      · decide)
